import Mathlib

/-!
FileSetverStorage: a file store behind three HTTP handlers.

A shallow embedding of `main.go`: the handlers `handlerSaveFileToStorage`,
`handlerDeleteFileInStorage` and `handlerExtractFromStorage`, together with the parts of
the Go library they call.

* `Base64` follows `encoding/base64` for `StdEncoding` (padded, not strict): the encoder,
  and the decoder with its quantum loop, which skips carriage returns and line feeds.
* `filepath` follows `path/filepath` of the Unix build: `Clean` and `Join`, read on the
  elements of a path.
* `os` is a model of the file system calls of the handlers. The state maps cleaned paths to
  files and directories; a path below a regular file cannot be resolved, and a file whose
  mode denies reading cannot be opened for reading. Every call can also fail through an
  injected fault, which stands for the failures the state does not explain (a missing
  parent directory, an I/O error). Symbolic links are not modelled: a path is taken
  literally.
* A request is the method and what `io.ReadAll` and `json.Unmarshal` make of the body; a
  response is the status code, the content type and the value that was encoded.
-/

/-- A byte of file content, Go's `byte`. -/
abbrev Byte := Fin 256

namespace Base64

/-- The alphabet `encodeStd` of `base64.StdEncoding`. -/
def encodeStd : List Char :=
  "ABCDEFGHIJKLMNOPQRSTUVWXYZabcdefghijklmnopqrstuvwxyz0123456789+/".data

/-- The padding character `StdPadding` of `base64.StdEncoding`. -/
def padChar : Char := '='

/-- The lookup `enc.encode[i]`; every index the encoder uses is masked with `0x3F`. -/
def encodeTable (i : Nat) : Char := encodeStd.getD i 'A'

/-- The lookup `enc.decodeMap[in]`: the index of `in` in the alphabet, `0xff` for every
other character. -/
def decodeMap (c : Char) : Nat :=
  if c ∈ encodeStd then encodeStd.indexOf c else 0xff

/-- The conversion `byte(x)` of an unsigned integer. -/
def toByte (x : Nat) : Byte := ⟨x % 256, Nat.mod_lt x (by decide)⟩

/-- The method `Encoding.Encode` of `StdEncoding`: three source bytes give four symbols,
a last block of one or two bytes is padded with `=`. -/
def encode : List Byte → List Char
  | b0 :: b1 :: b2 :: rest =>
    let val := b0.val <<< 16 ||| b1.val <<< 8 ||| b2.val
    encodeTable (val >>> 18 &&& 0x3F) :: encodeTable (val >>> 12 &&& 0x3F) ::
      encodeTable (val >>> 6 &&& 0x3F) :: encodeTable (val &&& 0x3F) :: encode rest
  | [b0, b1] =>
    let val := b0.val <<< 16 ||| b1.val <<< 8
    [encodeTable (val >>> 18 &&& 0x3F), encodeTable (val >>> 12 &&& 0x3F),
      encodeTable (val >>> 6 &&& 0x3F), padChar]
  | [b0] =>
    let val := b0.val <<< 16
    [encodeTable (val >>> 18 &&& 0x3F), encodeTable (val >>> 12 &&& 0x3F), padChar, padChar]
  | [] => []

/-- The method `Encoding.EncodeToString`. -/
def EncodeToString (src : List Byte) : String := String.mk (encode src)

/-- The decoder's test `in == '\n' || in == '\r'`. -/
def isNewline (c : Char) : Bool := c == '\n' || c == '\r'

/-- The loop `for si < len(src) && (src[si] == '\n' || src[si] == '\r') { si++ }`. -/
def skipNewlines : List Char → List Char
  | [] => []
  | c :: cs => if isNewline c then skipNewlines cs else c :: cs

/-- How the character loop of `decodeQuantum` ends. -/
inductive Quantum where
  /-- The input ended before any symbol of the quantum: `return si, 0, nil`. -/
  | atEnd
  /-- A `CorruptInputError` raised inside the loop. -/
  | corrupt
  /-- The loop was left with `dbuf`, `dlen`, the unread input and `err != nil`
  (trailing garbage after the padding). -/
  | filled (dbuf : List Nat) (dlen : Nat) (rest : List Char) (garbage : Bool)
  deriving DecidableEq, Repr

/-- The character loop `for j := 0; j < len(dbuf); j++` of `decodeQuantum` for
`StdEncoding` (padded, not strict). `dbuf` holds the symbols read so far, so the loop index
`j` is `dbuf.length`; the first argument is the input from `si` on. -/
def quantumLoop : List Char → List Nat → Quantum
  | [], dbuf =>
    if 4 ≤ dbuf.length then .filled dbuf 4 [] false
    -- `len(src) == si`: nothing read is the regular end, a started quantum is corrupt
    else if dbuf.length = 0 then .atEnd
    else .corrupt
  | c :: cs, dbuf =>
    if 4 ≤ dbuf.length then .filled dbuf 4 (c :: cs) false
    -- `out != 0xff`: a symbol of the alphabet
    else if decodeMap c ≠ 0xff then quantumLoop cs (dbuf ++ [decodeMap c])
    -- `in == '\n' || in == '\r'`: skipped, `j` stays
    else if isNewline c then quantumLoop cs dbuf
    -- `rune(in) != enc.padChar`
    else if c ≠ padChar then .corrupt
    -- padding at `j` 0 or 1: incorrect padding
    else if dbuf.length < 2 then .corrupt
    -- padding at `j` 2: a second padding character is expected after newlines
    else if dbuf.length = 2 then
      match skipNewlines cs with
      | [] => .corrupt
      | d :: ds =>
        if d ≠ padChar then .corrupt
        else .filled dbuf 2 (skipNewlines ds) (skipNewlines ds != [])
    -- padding at `j` 3; what follows the newlines after the padding is trailing garbage
    else .filled dbuf 3 (skipNewlines cs) (skipNewlines cs != [])

/-- The result of one call of `decodeQuantum`: the unread input, the bytes written and
whether `err` is set. -/
def decodeQuantum (src : List Char) : Option (List Char × List Byte) :=
  match quantumLoop src [] with
  | .atEnd => some ([], [])
  | .corrupt => none
  | .filled dbuf dlen rest garbage =>
    let val := dbuf.getD 0 0 <<< 18 ||| dbuf.getD 1 0 <<< 12 ||| dbuf.getD 2 0 <<< 6 |||
      dbuf.getD 3 0
    let b2 := toByte (val >>> 0)
    let b1 := toByte (val >>> 8)
    let b0 := toByte (val >>> 16)
    if garbage then none
    else
      match dlen with
      | 4 => some (rest, [b0, b1, b2])
      | 3 => some (rest, [b0, b1])
      | 2 => some (rest, [b0])
      | _ => some (rest, [])

/-- The loop `for si < len(src)` of `Encoding.Decode`, calling `decodeQuantum` until the
input is used up or an error is returned. `fuel` bounds the number of quanta. -/
def decodeLoop : Nat → List Char → Option (List Byte)
  | _, [] => some []
  | 0, _ :: _ => none
  | fuel + 1, c :: cs =>
    match decodeQuantum (c :: cs) with
    | none => none
    | some (rest, out) =>
      match decodeLoop fuel rest with
      | none => none
      | some more => some (out ++ more)

/-- The method `Encoding.DecodeString` of `StdEncoding`: `none` stands for a non-nil
`err` (a `CorruptInputError`), in which case the caller drops the bytes. -/
def DecodeString (s : String) : Option (List Byte) :=
  decodeLoop s.data.length s.data

/-- Membership of a character in the 64-symbol alphabet. -/
def inAlphabet (c : Char) : Bool := decide (c ∈ encodeStd)

/-- The padded 64-symbol encoding as the spec words it: groups of four alphabet symbols,
where the last group may end in one or two padding symbols. -/
def wellFormed : List Char → Bool
  | [] => true
  | a :: b :: c :: d :: rest =>
    inAlphabet a && inAlphabet b &&
      ((inAlphabet c && inAlphabet d && wellFormed rest) ||
        (rest == [] && d == padChar && (inAlphabet c || c == padChar)))
  | _ => false

/-- The text without its carriage returns and line feeds. -/
def stripNewlines (s : List Char) : List Char := s.filter (fun c => !isNewline c)

/-- What a result of the character loop says about the text it has read. -/
def QuantumSpec (src : List Char) (dbuf : List Nat) : Quantum → Prop
  | .corrupt => True
  | .atEnd => dbuf = [] ∧ stripNewlines src = []
  | .filled d dlen rest garbage =>
    ∃ syms : List Char, (∀ c ∈ syms, inAlphabet c = true) ∧
      d.length = dbuf.length + syms.length ∧
      ((dlen = 4 ∧ d.length = 4 ∧ stripNewlines src = syms ++ stripNewlines rest ∧
          garbage = false) ∨
        (dlen = 3 ∧ d.length = 3 ∧ stripNewlines src = syms ++ padChar :: stripNewlines rest ∧
          (garbage = false → rest = [])) ∨
        (dlen = 2 ∧ d.length = 2 ∧
          stripNewlines src = syms ++ padChar :: padChar :: stripNewlines rest ∧
          (garbage = false → rest = [])))

end Base64

namespace filepath

/-- The path separator of the Unix build, `filepath.Separator`. -/
def Separator : Char := '/'

/-- The elements of a path: the text between consecutive separators. `cur` holds the
element being read, last character first. -/
def splitAux : List Char → List Char → List (List Char)
  | [], cur => [cur.reverse]
  | c :: cs, cur =>
    if c = Separator then cur.reverse :: splitAux cs [] else splitAux cs (c :: cur)

/-- The elements of a path: the pieces between its separators, as `strings.Split(path, "/")`
returns them. -/
def elements (path : List Char) : List (List Char) := splitAux path []

/-- The name `..` of the parent directory. -/
def dotdotElem : List Char := ['.', '.']

/-- The loop `for r < n` of `Clean`, read element by element. `out` is the output written
so far and `dotdot` the number of leading elements of `out` that `..` must not remove (in
the source, the index in the buffer where `..` must stop). -/
def cleanLoop (rooted : Bool) : List (List Char) → List (List Char) → Nat → List (List Char)
  | [], out, _ => out
  | e :: es, out, dotdot =>
    -- empty path element
    if e = [] then cleanLoop rooted es out dotdot
    -- `.` element
    else if e = ['.'] then cleanLoop rooted es out dotdot
    else if e = dotdotElem then
      -- `..` element: `out.w > dotdot`, can backtrack
      if out.length > dotdot then cleanLoop rooted es out.dropLast dotdot
      -- cannot backtrack, but not rooted, so append the `..` element
      else if !rooted then cleanLoop rooted es (out ++ [dotdotElem]) (out.length + 1)
      else cleanLoop rooted es out dotdot
    -- real path element
    else cleanLoop rooted es (out ++ [e]) dotdot

/-- Whether the path starts with a separator. -/
def isRooted (path : List Char) : Bool :=
  match path with
  | c :: _ => c == Separator
  | [] => false

/-- The elements of the cleaned path. -/
def cleanElements (path : List Char) : List (List Char) :=
  cleanLoop (isRooted path) (elements path) [] 0

/-- The text of a path with the given elements. -/
def render (rooted : Bool) (elems : List (List Char)) : List Char :=
  if rooted then Separator :: List.intercalate [Separator] elems
  else if elems = [] then ['.']
  else List.intercalate [Separator] elems

/-- The function `filepath.Clean` of the Unix build. -/
def Clean (path : String) : String :=
  if path = "" then "." else String.mk (render (isRooted path.data) (cleanElements path.data))

/-- The function `filepath.Join`: the elements from the first non-empty one on are joined
with the separator and cleaned; when every element is empty the result is empty. -/
def Join : List String → String
  | [] => ""
  | e :: es =>
    if e = "" then Join es
    else Clean (String.intercalate "/" (e :: es))

/-- Whether the cleaned `path` lies in the directory `root` or is `root` itself: both are
rooted or both are not, the elements of the cleaned root begin those of the cleaned path,
and what follows them does not climb with `..`. -/
def inside (root path : String) : Bool :=
  isRooted root.data == isRooted path.data &&
    (cleanElements root.data).isPrefixOf (cleanElements path.data) &&
    !((cleanElements path.data).drop (cleanElements root.data).length).contains dotdotElem

/-- Whether the name climbs above the directory it starts from: cleaned on its own, as
a path that is not rooted, it begins with `..`. A `..` element that only cancels an element
before it, as in `a/../b`, does not climb. -/
def climbsAbove (name : String) : Bool :=
  (cleanLoop false (elements name.data) [] 0).head? == some dotdotElem

/-- A path element that `Clean` keeps as it is: not empty, not `.`, not `..`, and free of
separators. -/
def Plain (e : List Char) : Prop :=
  e ≠ [] ∧ e ≠ ['.'] ∧ e ≠ dotdotElem ∧ Separator ∉ e

/-- The form of the output of `Clean`: `dotdot` leading `..` elements, none when the path
is rooted, followed by plain elements. -/
def Cleaned (rooted : Bool) (out : List (List Char)) (dotdot : Nat) : Prop :=
  ∃ tail, out = List.replicate dotdot dotdotElem ++ tail ∧ (∀ e ∈ tail, Plain e) ∧
    (rooted = true → dotdot = 0)

end filepath

namespace os

/-- The error numbers the model distinguishes. -/
inductive Errno where
  | ENOENT
  | EACCES
  | ENOTDIR
  | EISDIR
  | ENOTEMPTY
  | ENOSPC
  | EMFILE
  | EIO
  deriving DecidableEq, Repr

/-- The text of `Errno.Error`. -/
def Errno.Error : Errno → String
  | Errno.ENOENT => "no such file or directory"
  | Errno.EACCES => "permission denied"
  | Errno.ENOTDIR => "not a directory"
  | Errno.EISDIR => "is a directory"
  | Errno.ENOTEMPTY => "directory not empty"
  | Errno.ENOSPC => "no space left on device"
  | Errno.EMFILE => "too many open files"
  | Errno.EIO => "input/output error"

/-- The text of `PathError.Error`, which is what `%v` prints for the error of a file
operation. -/
def PathError (op path : String) (err : Errno) : String :=
  op ++ " " ++ path ++ ": " ++ err.Error

/-- The test `os.IsNotExist(err)`; `none` is the nil error. -/
def IsNotExist (err : Option Errno) : Bool := err == some Errno.ENOENT

/-- What a path names. -/
inductive Node where
  /-- A regular file that the server may read and write. -/
  | file (content : List Byte)
  | dir
  /-- A regular file whose mode denies reading to the server, such as `0200`: it can be
  opened for writing, not for reading. -/
  | unreadable (content : List Byte)
  deriving DecidableEq, Repr

/-- Whether the node is a regular file. -/
def Node.isFile : Node → Bool
  | Node.file _ => true
  | Node.dir => false
  | Node.unreadable _ => true

/-- The files and directories on disk, by cleaned path. A path below a regular file cannot
be resolved (`ENOTDIR`), and a file whose mode denies reading cannot be opened for reading
(`EACCES`). Other modes, symbolic links and the existence of the parent directory are not
part of the state: a failure they cause (a missing parent gives `ENOENT` on create) is
among the injected faults below, and a path is taken literally, not through links. -/
abbrev FileSystem := List (String × Node)

/-- The node a path names, if any. -/
def lookupNode (fs : FileSystem) (path : String) : Option Node := fs.lookup path

/-- The file system without the entry of a path. -/
def removeNode (fs : FileSystem) (path : String) : FileSystem :=
  fs.filter (fun e => e.1 != path)

/-- The file system with a path naming the given node. -/
def putNode (fs : FileSystem) (path : String) (n : Node) : FileSystem :=
  (path, n) :: removeNode fs path

/-- Whether the path leads through a regular file: some other entry that is a file lies
above it. Resolving such a path fails with `ENOTDIR`. -/
def belowFile (fs : FileSystem) (path : String) : Bool :=
  fs.any (fun e => e.2.isFile && (e.1 != path && filepath.inside e.1 path))

/-- Whether some other entry lies in the directory `path`. -/
def hasEntryBelow (fs : FileSystem) (path : String) : Bool :=
  fs.any (fun e => e.1 != path && filepath.inside path e.1)

/-- Failures that the state of the file system does not explain (an I/O error, a full disk,
a missing parent directory, another process), one slot for each system call a handler
makes. A slot that is `none` lets the call run on the state. -/
structure Faults where
  MkdirAll : Option Errno
  OpenFile : Option Errno
  /-- The number of bytes written before the copy fails, and the error. -/
  Copy : Option (Nat × Errno)
  Sync : Option Errno
  Close : Option Errno
  Stat : Option Errno
  Remove : Option Errno
  Open : Option Errno
  ReadAll : Option Errno
  deriving DecidableEq, Repr

/-- The run in which no call fails for a reason outside the state. -/
def noFaults : Faults := ⟨none, none, none, none, none, none, none, none, none⟩

/-- The call `os.MkdirAll(path, os.ModePerm)`: the directory exists afterwards, and the
call fails when the path is empty, leads through a file or names a file. -/
def MkdirAll (fault : Option Errno) (fs : FileSystem) (path : String) :
    Except Errno FileSystem :=
  match fault with
  | some e => .error e
  | none =>
    if path = "" then .error Errno.ENOENT
    else if belowFile fs (filepath.Clean path) then .error Errno.ENOTDIR
    else
      match lookupNode fs (filepath.Clean path) with
      | some (Node.file _) => .error Errno.ENOTDIR
      | some (Node.unreadable _) => .error Errno.ENOTDIR
      | some Node.dir => .ok fs
      | none => .ok (putNode fs (filepath.Clean path) Node.dir)

/-- The call `os.OpenFile(path, os.O_WRONLY|os.O_CREATE|os.O_TRUNC, 0644)`: the file
exists and is empty afterwards; a directory cannot be opened for writing, and a path that
leads through a file cannot be opened. The file is opened for writing only, so the call
does not need the file to be readable; the mode `0644` is given to a file that is
created, an existing file keeps its own. -/
def OpenFile (fault : Option Errno) (fs : FileSystem) (path : String) :
    Except Errno FileSystem :=
  match fault with
  | some e => .error e
  | none =>
    if path = "" then .error Errno.ENOENT
    else if belowFile fs path then .error Errno.ENOTDIR
    else
      match lookupNode fs path with
      | some Node.dir => .error Errno.EISDIR
      -- an existing file is truncated and keeps its mode
      | some (Node.unreadable _) => .ok (putNode fs path (Node.unreadable []))
      -- a new file is created with mode `0644`
      | _ => .ok (putNode fs path (Node.file []))

/-- The content of the file a path names; a path that names no file has none. -/
def fileContent (fs : FileSystem) (path : String) : List Byte :=
  match lookupNode fs path with
  | some (Node.file c) => c
  | some (Node.unreadable c) => c
  | _ => []

/-- The file at a path with new content: the mode of the file stays. -/
def withContent (fs : FileSystem) (path : String) (content : List Byte) : Node :=
  match lookupNode fs path with
  | some (Node.unreadable _) => Node.unreadable content
  | _ => Node.file content

/-- The call `io.Copy(file, bytes.NewReader(data))` on the file opened at `path`: the
bytes are appended at the write offset, which is the end of the file; a failing copy has
written only the first bytes. The result is the state and `err`. -/
def Copy (fault : Option (Nat × Errno)) (fs : FileSystem) (path : String)
    (data : List Byte) : FileSystem × Option Errno :=
  match fault with
  | some (n, e) =>
    (putNode fs path (withContent fs path (fileContent fs path ++ data.take n)), some e)
  | none => (putNode fs path (withContent fs path (fileContent fs path ++ data)), none)

/-- The call `file.Sync()`: its `err`. -/
def Sync (fault : Option Errno) : Option Errno := fault

/-- The call `file.Close()`: its `err`. -/
def Close (fault : Option Errno) : Option Errno := fault

/-- The call `os.Stat(path)`: the size of the file, or the error. A path below a regular
file gives `ENOTDIR`, which is not `ErrNotExist`; any other path that names nothing gives
`ENOENT`. -/
def Stat (fault : Option Errno) (fs : FileSystem) (path : String) : Except Errno Nat :=
  match fault with
  | some e => .error e
  | none =>
    if belowFile fs path then .error Errno.ENOTDIR
    else
      match lookupNode fs path with
      | none => .error Errno.ENOENT
      | some (Node.file c) => .ok c.length
      | some Node.dir => .ok 0
      | some (Node.unreadable c) => .ok c.length

/-- The call `os.Remove(path)`: removes a file or an empty directory. -/
def Remove (fault : Option Errno) (fs : FileSystem) (path : String) :
    Except Errno FileSystem :=
  match fault with
  | some e => .error e
  | none =>
    if belowFile fs path then .error Errno.ENOTDIR
    else
      match lookupNode fs path with
      | none => .error Errno.ENOENT
      | some (Node.file _) => .ok (removeNode fs path)
      | some (Node.unreadable _) => .ok (removeNode fs path)
      | some Node.dir =>
        if hasEntryBelow fs path then .error Errno.ENOTEMPTY else .ok (removeNode fs path)

/-- The call `os.Open(path)`: the node opened for reading, or the error. A path below a
regular file gives `ENOTDIR`; a file whose mode denies reading gives `EACCES`. -/
def Open (fault : Option Errno) (fs : FileSystem) (path : String) : Except Errno Node :=
  match fault with
  | some e => .error e
  | none =>
    if belowFile fs path then .error Errno.ENOTDIR
    else
      match lookupNode fs path with
      | none => .error Errno.ENOENT
      | some (Node.unreadable _) => .error Errno.EACCES
      | some n => .ok n

/-- The call `io.ReadAll(file)`: the whole content; a directory cannot be read. -/
def ReadAll (fault : Option Errno) (file : Node) : Except Errno (List Byte) :=
  match fault with
  | some e => .error e
  | none =>
    match file with
    | Node.file c => .ok c
    | Node.dir => .error Errno.EISDIR
    | Node.unreadable _ => .error Errno.EACCES

/-- The `err` of a call, `none` for nil. -/
def errOf {α : Type} : Except Errno α → Option Errno
  | .error e => some e
  | .ok _ => none

end os

/-- The type `SaveFileRequest`. -/
structure SaveFileRequest where
  FileBody : String
  FileName : String
  deriving DecidableEq, Repr

/-- The type `SaveFileResponse`. -/
structure SaveFileResponse where
  Success : Bool
  Message : String
  deriving DecidableEq, Repr

/-- The type `DeleteFileRequest`. -/
structure DeleteFileRequest where
  FileName : String
  deriving DecidableEq, Repr

/-- The type `ExtractFileRequest`. -/
structure ExtractFileRequest where
  FileName : String
  deriving DecidableEq, Repr

/-- The unnamed struct that `handlerExtractFromStorage` encodes on success. -/
structure ExtractFileResponse where
  FileBody : String
  Success : Bool
  Message : String
  deriving DecidableEq, Repr

/-- What reading `r.Body` and `json.Unmarshal` make of the body of a request. -/
inductive RequestBody (α : Type) where
  /-- The call `io.ReadAll(r.Body)` returned an error. -/
  | unreadable
  /-- The call `json.Unmarshal` returned an error. -/
  | malformed
  /-- The body was parsed into the request value. -/
  | parsed (requestData : α)
  deriving DecidableEq, Repr

/-- An HTTP request as the handlers see it. -/
structure Request (α : Type) where
  Method : String
  Body : RequestBody α
  deriving DecidableEq, Repr

/-- What was written to the response body. -/
inductive ResponseBody where
  /-- Plain text, written by `http.Error`. -/
  | text (s : String)
  /-- The JSON encoding of a `SaveFileResponse`. -/
  | result (v : SaveFileResponse)
  /-- The JSON encoding of the struct with `FileBody`, `Success` and `Message`. -/
  | extracted (v : ExtractFileResponse)
  deriving DecidableEq, Repr

/-- What a handler has written to its `http.ResponseWriter`. -/
structure Response where
  StatusCode : Nat
  ContentType : String
  Body : ResponseBody
  deriving DecidableEq, Repr

namespace http

/-- The constant `http.MethodPost`. -/
def MethodPost : String := "POST"

/-- The constant `http.StatusOK`, the status of a response that sets none. -/
def StatusOK : Nat := 200

/-- The constant `http.StatusBadRequest`. -/
def StatusBadRequest : Nat := 400

/-- The constant `http.StatusMethodNotAllowed`. -/
def StatusMethodNotAllowed : Nat := 405

/-- The function `http.Error`: a plain-text body, the message and a line feed. -/
def Error (error : String) (code : Nat) : Response :=
  ⟨code, "text/plain; charset=utf-8", ResponseBody.text (error ++ "\n")⟩

end http

open os filepath Base64

/-- The function `sendErrorResponse`. -/
def sendErrorResponse (message : String) : Response :=
  ⟨http.StatusBadRequest, "application/json", ResponseBody.result ⟨false, message⟩⟩

/-- The function `sendSuccessResponse`. -/
def sendSuccessResponse : Response :=
  ⟨http.StatusOK, "application/json", ResponseBody.result ⟨true, ""⟩⟩

/-- The function `handlerSaveFileToStorage`: the response and the file system after it. -/
def handlerSaveFileToStorage (storageDir : String) (f : Faults) (fs : FileSystem)
    (r : Request SaveFileRequest) : Response × FileSystem :=
  if r.Method ≠ http.MethodPost then
    (http.Error "Method not allowed" http.StatusMethodNotAllowed, fs)
  else
    match r.Body with
    | .unreadable => (sendErrorResponse "Error reading request body", fs)
    | .malformed => (sendErrorResponse "Error parsing JSON", fs)
    | .parsed requestData =>
      match DecodeString requestData.FileBody with
      | none => (sendErrorResponse "Error decoding base64", fs)
      | some fileData =>
        match MkdirAll f.MkdirAll fs storageDir with
        | .error _ => (sendErrorResponse "Error creating storage directory", fs)
        | .ok fs1 =>
          let filePath := Join [storageDir, requestData.FileName]
          match OpenFile f.OpenFile fs1 filePath with
          | .error _ => (sendErrorResponse "Error opening file", fs1)
          | .ok fs2 =>
            match Copy f.Copy fs2 filePath fileData with
            | (fs3, some _) => (sendErrorResponse "Error writing file", fs3)
            | (fs3, none) =>
              match Sync f.Sync with
              | some _ => (sendErrorResponse "Error syncing file", fs3)
              | none =>
                match Close f.Close with
                | some _ => (sendErrorResponse "Error closing file", fs3)
                | none =>
                  match Stat f.Stat fs3 filePath with
                  | .error _ => (sendErrorResponse "Error getting file info", fs3)
                  | .ok _ => (sendSuccessResponse, fs3)

/-- The function `handlerDeleteFileInStorage`: the response and the file system after
it. -/
def handlerDeleteFileInStorage (storageDir : String) (f : Faults) (fs : FileSystem)
    (r : Request DeleteFileRequest) : Response × FileSystem :=
  if r.Method ≠ http.MethodPost then
    (http.Error "Method not allowed" http.StatusMethodNotAllowed, fs)
  else
    match r.Body with
    | .unreadable => (sendErrorResponse "Error reading request body", fs)
    | .malformed => (sendErrorResponse "Error parsing JSON", fs)
    | .parsed requestData =>
      let filePath := Join [storageDir, requestData.FileName]
      if IsNotExist (errOf (Stat f.Stat fs filePath)) then
        (sendErrorResponse "File not found", fs)
      else
        match Remove f.Remove fs filePath with
        | .error _ => (sendErrorResponse "Error deleting file", fs)
        | .ok fs1 => (sendSuccessResponse, fs1)

/-- The function `handlerExtractFromStorage`: the response and the file system after
it. -/
def handlerExtractFromStorage (storageDir : String) (f : Faults) (fs : FileSystem)
    (r : Request ExtractFileRequest) : Response × FileSystem :=
  if r.Method ≠ http.MethodPost then
    (http.Error "Method not allowed" http.StatusMethodNotAllowed, fs)
  else
    match r.Body with
    | .unreadable => (sendErrorResponse "Error reading request body", fs)
    | .malformed => (sendErrorResponse "Error parsing JSON", fs)
    | .parsed requestData =>
      let filePath := Join [storageDir, requestData.FileName]
      match Open f.Open fs filePath with
      | .error err =>
        if IsNotExist (some err) then
          (sendErrorResponse ("File not found: " ++ requestData.FileName), fs)
        else
          (sendErrorResponse ("Error opening file: " ++ PathError "open" filePath err), fs)
      | .ok file =>
        match ReadAll f.ReadAll file with
        | .error _ => (sendErrorResponse "Error reading file content", fs)
        | .ok fileData =>
          let base64Data := EncodeToString fileData
          (⟨http.StatusOK, "application/json",
            ResponseBody.extracted ⟨base64Data, true, ""⟩⟩, fs)

/-- A POST request whose body parsed into `requestData`. -/
def post {α : Type} (requestData : α) : Request α := ⟨http.MethodPost, .parsed requestData⟩

/-- Whether the response body is a JSON object with a boolean Success and a string
Message. -/
def Response.isResultJson (r : Response) : Bool :=
  match r.Body with
  | .text _ => false
  | .result _ => true
  | .extracted _ => true

/-- Whether the response reports success. -/
def Response.isSuccess (r : Response) : Bool :=
  match r.Body with
  | .text _ => false
  | .result v => v.Success
  | .extracted v => v.Success

/-- Whether the status code is of the client-error class. -/
def Response.isClientError (r : Response) : Bool :=
  decide (400 ≤ r.StatusCode) && decide (r.StatusCode < 500)

/-- The six steps of the Save operation as the spec lists them: decode the body, ensure the
storage directory, open the file with truncation, write all bytes, sync, close. The result
is the file system after them, `none` when one of them fails. -/
def saveSixSteps (storageDir : String) (f : Faults) (fs : FileSystem)
    (req : SaveFileRequest) : Option FileSystem :=
  match DecodeString req.FileBody with
  | none => none
  | some fileData =>
    match MkdirAll f.MkdirAll fs storageDir with
    | .error _ => none
    | .ok fs1 =>
      match OpenFile f.OpenFile fs1 (Join [storageDir, req.FileName]) with
      | .error _ => none
      | .ok fs2 =>
        match Copy f.Copy fs2 (Join [storageDir, req.FileName]) fileData with
        | (_, some _) => none
        | (fs3, none) =>
          match Sync f.Sync, Close f.Close with
          | none, none => some fs3
          | _, _ => none

/-- Malformed for the padded 64-symbol encoding in the words of the spec: some character
is neither in the alphabet nor the padding symbol, or the padding is wrong. -/
def malformed (s : List Char) : Bool :=
  s.any (fun c => !inAlphabet c && c != padChar) || !wellFormed s

/-- What claim C7 says of one response to a request with the given method: for a POST
request the body is a JSON object with Success and Message, for any other method the
response is the plain text Method not allowed with status 405, and a response that does
not report success carries a status of the client-error class. -/
def envelopeHolds (method : String) (resp : Response) : Prop :=
  (method = http.MethodPost → resp.isResultJson = true) ∧
    (method ≠ http.MethodPost →
      resp = http.Error "Method not allowed" http.StatusMethodNotAllowed) ∧
    (resp.isSuccess = false → resp.isClientError = true)

/-! Theorems on the encoder and the decoder. -/
namespace Base64

theorem shl_or (a b i : Nat) (hb : b < 2 ^ i) : a <<< i ||| b = a * 2 ^ i + b := by
  rw [Nat.shiftLeft_eq, Nat.mul_comm a (2 ^ i)]
  exact (Nat.mul_add_lt_is_or hb a).symm

theorem pack3 (b0 b1 b2 : Nat) (h1 : b1 < 256) (h2 : b2 < 256) :
    b0 <<< 16 ||| b1 <<< 8 ||| b2 = b0 * 65536 + b1 * 256 + b2 := by
  have e1 : b0 <<< 16 ||| b1 <<< 8 = (b0 * 256 + b1) <<< 8 := by
    rw [shl_or b0 (b1 <<< 8) 16 (by simp only [Nat.shiftLeft_eq]; omega)]
    simp only [Nat.shiftLeft_eq]
    omega
  rw [e1, shl_or _ b2 8 (by omega)]
  omega

theorem pack4 (s0 s1 s2 s3 : Nat) (h1 : s1 < 64) (h2 : s2 < 64) (h3 : s3 < 64) :
    s0 <<< 18 ||| s1 <<< 12 ||| s2 <<< 6 ||| s3 = s0 * 262144 + s1 * 4096 + s2 * 64 + s3 := by
  have e1 : s0 <<< 18 ||| s1 <<< 12 = (s0 * 64 + s1) <<< 12 := by
    rw [shl_or s0 (s1 <<< 12) 18 (by simp only [Nat.shiftLeft_eq]; omega)]
    simp only [Nat.shiftLeft_eq]
    omega
  have e2 : (s0 * 64 + s1) <<< 12 ||| s2 <<< 6 = (s0 * 4096 + s1 * 64 + s2) <<< 6 := by
    rw [shl_or _ (s2 <<< 6) 12 (by simp only [Nat.shiftLeft_eq]; omega)]
    simp only [Nat.shiftLeft_eq]
    omega
  rw [e1, e2, shl_or _ s3 6 (by omega)]
  omega

theorem sextet (v k : Nat) : v >>> k &&& 0x3F = v / 2 ^ k % 64 := by
  have := Nat.and_pow_two_sub_one_eq_mod (v >>> k) 6
  simp only [Nat.shiftRight_eq_div_pow] at this ⊢
  simpa using this

theorem sextet0 (v : Nat) : v &&& 0x3F = v % 64 := by
  have := Nat.and_pow_two_sub_one_eq_mod v 6
  simpa using this

theorem decodeMap_encodeTable : ∀ i : Fin 64, decodeMap (encodeTable i.val) = i.val := by
  decide

theorem decodeMap_padChar : decodeMap padChar = 0xff := by decide

theorem quantumLoop_full (src : List Char) (dbuf : List Nat) (h : 4 ≤ dbuf.length) :
    quantumLoop src dbuf = .filled dbuf 4 src false := by
  cases src <;> simp [quantumLoop, h]

theorem quantumLoop_symbol (i : Nat) (hi : i < 64) (cs : List Char) (dbuf : List Nat)
    (h : dbuf.length < 4) :
    quantumLoop (encodeTable i :: cs) dbuf = quantumLoop cs (dbuf ++ [i]) := by
  have e := decodeMap_encodeTable ⟨i, hi⟩
  simp only at e
  have hlt : ¬ 4 ≤ dbuf.length := by omega
  have hne : i ≠ 0xff := by omega
  simp only [quantumLoop, hlt, if_false, e, hne, ne_eq, not_false_eq_true, if_true]

theorem quantumLoop_pad3 (s0 s1 s2 : Nat) :
    quantumLoop [padChar] [s0, s1, s2] = .filled [s0, s1, s2] 3 [] false := by
  have e : decodeMap '=' = 255 := by decide
  simp [quantumLoop, e, isNewline, padChar, skipNewlines]

theorem quantumLoop_pad2 (s0 s1 : Nat) :
    quantumLoop [padChar, padChar] [s0, s1] = .filled [s0, s1] 2 [] false := by
  have e : decodeMap '=' = 255 := by decide
  simp [quantumLoop, e, isNewline, padChar, skipNewlines]

theorem decodeQuantum_block (b0 b1 b2 : Byte) (tail : List Char) :
    decodeQuantum (encode [b0, b1, b2] ++ tail) = some (tail, [b0, b1, b2]) := by
  obtain ⟨b0, h0⟩ := b0
  obtain ⟨b1, h1⟩ := b1
  obtain ⟨b2, h2⟩ := b2
  simp only [encode, decodeQuantum, pack3 b0 b1 b2 h1 h2, sextet, sextet0, List.cons_append,
    List.nil_append]
  rw [quantumLoop_symbol _ (by omega) _ _ (by simp),
    quantumLoop_symbol _ (by omega) _ _ (by simp),
    quantumLoop_symbol _ (by omega) _ _ (by simp),
    quantumLoop_symbol _ (by omega) _ _ (by simp),
    quantumLoop_full _ _ (by simp)]
  simp only [List.nil_append, List.cons_append, List.getD_cons_zero, List.getD_cons_succ]
  rw [pack4 _ _ _ _ (by omega) (by omega) (by omega)]
  simp only [Nat.shiftRight_eq_div_pow, toByte, Bool.false_eq_true, if_false]
  congr 3
  · apply Fin.ext; simp only; omega
  · congr 1
    · apply Fin.ext; simp only; omega
    · congr 1
      apply Fin.ext; simp only; omega

theorem decodeQuantum_two (b0 b1 : Byte) :
    decodeQuantum (encode [b0, b1]) = some ([], [b0, b1]) := by
  obtain ⟨b0, h0⟩ := b0
  obtain ⟨b1, h1⟩ := b1
  have hp : b0 <<< 16 ||| b1 <<< 8 = b0 * 65536 + b1 * 256 := by
    have := pack3 b0 b1 0 h1 (by omega)
    rw [Nat.or_zero, Nat.add_zero] at this
    exact this
  simp only [encode, decodeQuantum]
  rw [hp]
  simp only [sextet]
  rw [quantumLoop_symbol _ (by omega) _ _ (by simp),
    quantumLoop_symbol _ (by omega) _ _ (by simp),
    quantumLoop_symbol _ (by omega) _ _ (by simp)]
  simp only [List.nil_append, List.cons_append, quantumLoop_pad3, List.getD_cons_zero,
    List.getD_cons_succ, List.getD_nil]
  rw [pack4 _ _ _ _ (by omega) (by omega) (by omega)]
  simp only [Nat.shiftRight_eq_div_pow, toByte, Bool.false_eq_true, if_false]
  congr 3
  · apply Fin.ext; simp only; omega
  · congr 1
    apply Fin.ext; simp only; omega

theorem decodeQuantum_one (b0 : Byte) :
    decodeQuantum (encode [b0]) = some ([], [b0]) := by
  obtain ⟨b0, h0⟩ := b0
  have hp : b0 <<< 16 = b0 * 65536 := by rw [Nat.shiftLeft_eq]
  simp only [encode, decodeQuantum]
  rw [hp]
  simp only [sextet]
  rw [quantumLoop_symbol _ (by omega) _ _ (by simp),
    quantumLoop_symbol _ (by omega) _ _ (by simp)]
  simp only [List.nil_append, List.cons_append, quantumLoop_pad2, List.getD_cons_zero,
    List.getD_cons_succ, List.getD_nil]
  rw [pack4 _ _ _ _ (by omega) (by omega) (by omega)]
  simp only [Nat.shiftRight_eq_div_pow, toByte, Bool.false_eq_true, if_false]
  congr 3
  apply Fin.ext; simp only; omega

theorem encode_block (b0 b1 b2 : Byte) (rest : List Byte) :
    encode (b0 :: b1 :: b2 :: rest) = encode [b0, b1, b2] ++ encode rest := by
  simp [encode]

theorem length_encode_block (b0 b1 b2 : Byte) : (encode [b0, b1, b2]).length = 4 := by
  simp [encode]

theorem decodeLoop_encode : ∀ (b : List Byte) (fuel : Nat), (encode b).length ≤ fuel →
    decodeLoop fuel (encode b) = some b
  | [], fuel, _ => by cases fuel <;> simp [encode, decodeLoop]
  | [b0], fuel, h => by
    cases fuel with
    | zero => simp [encode] at h
    | succ fuel =>
      have hq := decodeQuantum_one b0
      have hc : encode [b0] = (encode [b0]).head (by simp [encode]) ::
          (encode [b0]).tail := by simp [encode]
      rw [hc] at hq ⊢
      simp only [decodeLoop, hq]
      cases fuel <;> simp [decodeLoop]
  | [b0, b1], fuel, h => by
    cases fuel with
    | zero => simp [encode] at h
    | succ fuel =>
      have hq := decodeQuantum_two b0 b1
      have hc : encode [b0, b1] = (encode [b0, b1]).head (by simp [encode]) ::
          (encode [b0, b1]).tail := by simp [encode]
      rw [hc] at hq ⊢
      simp only [decodeLoop, hq]
      cases fuel <;> simp [decodeLoop]
  | b0 :: b1 :: b2 :: rest, fuel, h => by
    rw [encode_block] at h ⊢
    rw [List.length_append, length_encode_block] at h
    cases fuel with
    | zero => omega
    | succ fuel =>
      have hq := decodeQuantum_block b0 b1 b2 (encode rest)
      have ih := decodeLoop_encode rest fuel (by omega)
      have hc : encode [b0, b1, b2] ++ encode rest =
          (encode [b0, b1, b2]).head (by simp [encode]) ::
            ((encode [b0, b1, b2]).tail ++ encode rest) := by simp [encode]
      rw [hc] at hq ⊢
      simp only [decodeLoop, hq, ih]
      simp

/-- The model of the encoder and the decoder on the test vectors of RFC 4648. -/
theorem rfc4648_vectors :
    EncodeToString [] = "" ∧ EncodeToString [102] = "Zg==" ∧
    EncodeToString [102, 111] = "Zm8=" ∧ EncodeToString [102, 111, 111] = "Zm9v" ∧
    EncodeToString [102, 111, 111, 98] = "Zm9vYg==" ∧
    EncodeToString [102, 111, 111, 98, 97] = "Zm9vYmE=" ∧
    EncodeToString [102, 111, 111, 98, 97, 114] = "Zm9vYmFy" ∧
    DecodeString "Zg==" = some [102] ∧ DecodeString "Zm8=" = some [102, 111] ∧
    DecodeString "Zm9vYmFy" = some [102, 111, 111, 98, 97, 114] ∧
    DecodeString "Zg=" = none ∧ DecodeString "Zg" = none ∧ DecodeString "Zg==Zg==" = none ∧
    DecodeString "Zm9v\r\nYmFy\r\n" = some [102, 111, 111, 98, 97, 114] := by
  decide

/-- Decoding what the encoder produced gives back the bytes. -/
theorem DecodeString_EncodeToString (b : List Byte) :
    DecodeString (EncodeToString b) = some b :=
  decodeLoop_encode b _ (Nat.le_refl _)

theorem decodeMap_ne_iff (c : Char) : decodeMap c ≠ 0xff ↔ inAlphabet c = true := by
  unfold decodeMap inAlphabet
  by_cases h : c ∈ encodeStd
  · simp only [h, if_true, decide_True, iff_true]
    have hlt : encodeStd.indexOf c < encodeStd.length := List.indexOf_lt_length.mpr h
    have : encodeStd.length = 64 := by decide
    omega
  · simp [h]

theorem stripNewlines_skipNewlines (cs : List Char) :
    stripNewlines (skipNewlines cs) = stripNewlines cs := by
  induction cs with
  | nil => rfl
  | cons c cs ih =>
    by_cases h : isNewline c = true
    · simp [skipNewlines, stripNewlines, h] at ih ⊢
      exact ih
    · simp [skipNewlines, h]

theorem stripNewlines_cons_newline (c : Char) (cs : List Char) (h : isNewline c = true) :
    stripNewlines (c :: cs) = stripNewlines cs := by
  simp [stripNewlines, h]

theorem stripNewlines_cons_other (c : Char) (cs : List Char) (h : ¬ isNewline c = true) :
    stripNewlines (c :: cs) = c :: stripNewlines cs := by
  simp [stripNewlines, h]

theorem padChar_not_newline : ¬ isNewline padChar = true := by decide

theorem quantumLoop_spec : ∀ (src : List Char) (dbuf : List Nat), dbuf.length ≤ 4 →
    QuantumSpec src dbuf (quantumLoop src dbuf)
  | [], dbuf, hlen => by
    unfold quantumLoop
    split
    · exact ⟨[], by simp, by simp, Or.inl ⟨rfl, by omega, by simp [stripNewlines], rfl⟩⟩
    · split
      · rename_i h0
        exact ⟨List.length_eq_zero.mp h0, rfl⟩
      · trivial
  | c :: cs, dbuf, hlen => by
    unfold quantumLoop
    split
    · exact ⟨[], by simp, by simp, Or.inl ⟨rfl, by omega, by simp, rfl⟩⟩
    · rename_i h4
      split
      · rename_i hsym
        have hc : inAlphabet c = true := (decodeMap_ne_iff c).mp hsym
        have hnl : ¬ isNewline c = true := by
          intro h
          have : ∀ x : Char, x ∈ encodeStd → ¬ isNewline x = true := by decide
          exact this c (by simpa [inAlphabet] using hc) h
        have ih := quantumLoop_spec cs (dbuf ++ [decodeMap c]) (by simp; omega)
        generalize quantumLoop cs (dbuf ++ [decodeMap c]) = r at ih
        cases r with
        | corrupt => trivial
        | atEnd => simp [QuantumSpec] at ih
        | filled d dlen rest g =>
          obtain ⟨syms, hs, hl, hcase⟩ := ih
          refine ⟨c :: syms, ?_, ?_, ?_⟩
          · intro x hx
            rcases List.mem_cons.mp hx with rfl | hx
            · exact hc
            · exact hs x hx
          · simp at hl ⊢; omega
          · rw [stripNewlines_cons_other c cs hnl]
            rcases hcase with ⟨a, b, e, g⟩ | ⟨a, b, e, g⟩ | ⟨a, b, e, g⟩
            · exact Or.inl ⟨a, b, by rw [e]; rfl, g⟩
            · exact Or.inr (Or.inl ⟨a, b, by rw [e]; rfl, g⟩)
            · exact Or.inr (Or.inr ⟨a, b, by rw [e]; rfl, g⟩)
      · split
        · rename_i hnl
          have ih := quantumLoop_spec cs dbuf hlen
          generalize quantumLoop cs dbuf = r at ih
          cases r with
          | corrupt => trivial
          | atEnd =>
            simp only [QuantumSpec, stripNewlines_cons_newline c cs hnl] at ih ⊢
            exact ih
          | filled d dlen rest g =>
            simp only [QuantumSpec, stripNewlines_cons_newline c cs hnl] at ih ⊢
            exact ih
        · rename_i hnl
          split
          · trivial
          · rename_i hpad
            have hpad : c = padChar := by simpa using hpad
            subst hpad
            split
            · trivial
            · split
              · rename_i h2
                split
                · trivial
                · rename_i d ds hskip
                  split
                  · trivial
                  · rename_i hd
                    have hd : d = padChar := by simpa using hd
                    subst hd
                    refine ⟨[], by simp, by simp, Or.inr (Or.inr ⟨rfl, h2, ?_, ?_⟩)⟩
                    · rw [stripNewlines_cons_other _ cs hnl, ← stripNewlines_skipNewlines cs,
                        hskip, stripNewlines_cons_other _ ds hnl, stripNewlines_skipNewlines]
                      rfl
                    · intro hg
                      simpa using hg
              · refine ⟨[], by simp, by simp, Or.inr (Or.inl ⟨rfl, by omega, ?_, ?_⟩)⟩
                · rw [stripNewlines_cons_other _ cs hnl, stripNewlines_skipNewlines]
                  rfl
                · intro hg
                  simpa using hg

theorem wellFormed_of_decodeQuantum (src rest : List Char) (out : List Byte)
    (h : decodeQuantum src = some (rest, out)) (hrest : wellFormed (stripNewlines rest) = true) :
    wellFormed (stripNewlines src) = true := by
  have hspec := quantumLoop_spec src [] (by simp)
  unfold decodeQuantum at h
  generalize quantumLoop src [] = r at hspec h
  cases r with
  | corrupt => simp at h
  | atEnd =>
    rw [hspec.2]
    rfl
  | filled d dlen rest1 g =>
    obtain ⟨syms, hs, hl, hcase⟩ := hspec
    cases g with
    | true => simp at h
    | false =>
      have hr : rest1 = rest := by
        simp only [Bool.false_eq_true, if_false] at h
        split at h <;> simp at h <;> exact h.1
      subst hr
      simp only [List.length_nil, Nat.zero_add] at hl
      rcases hcase with ⟨_, b, e, _⟩ | ⟨_, b, e, g⟩ | ⟨_, b, e, g⟩
      · rw [b] at hl
        match syms, hl, hs with
        | [a1, a2, a3, a4], _, hs =>
          rw [e]
          simp [wellFormed, hs, hrest]
      · rw [b] at hl
        have hnil := g rfl
        subst hnil
        match syms, hl, hs with
        | [a1, a2, a3], _, hs =>
          rw [e]
          simp [wellFormed, hs, stripNewlines]
      · rw [b] at hl
        have hnil := g rfl
        subst hnil
        match syms, hl, hs with
        | [a1, a2], _, hs =>
          rw [e]
          simp [wellFormed, hs, stripNewlines]

theorem wellFormed_of_decodeLoop : ∀ (fuel : Nat) (src : List Char) (out : List Byte),
    decodeLoop fuel src = some out → wellFormed (stripNewlines src) = true
  | _, [], _, _ => rfl
  | 0, _ :: _, _, h => by simp [decodeLoop] at h
  | fuel + 1, c :: cs, out, h => by
    simp only [decodeLoop] at h
    split at h
    · simp at h
    · rename_i rest o hq
      split at h
      · simp at h
      · rename_i more hmore
        exact wellFormed_of_decodeQuantum _ _ _ hq (wellFormed_of_decodeLoop fuel rest more hmore)

theorem decodeMap_newline (c : Char) (h : isNewline c = true) : decodeMap c = 0xff := by
  have hc : c = '\n' ∨ c = '\r' := by simpa [isNewline] using h
  rcases hc with rfl | rfl <;> decide

theorem quantumLoop_newline (c : Char) (cs : List Char) (dbuf : List Nat)
    (hlen : dbuf.length < 4) (h : isNewline c = true) :
    quantumLoop (c :: cs) dbuf = quantumLoop cs dbuf := by
  have h4 : ¬ 4 ≤ dbuf.length := by omega
  simp [quantumLoop, h4, decodeMap_newline c h, h]

theorem skipNewlines_of_strip_nil : ∀ (cs : List Char), stripNewlines cs = [] →
    skipNewlines cs = []
  | [], _ => rfl
  | c :: cs, h => by
    by_cases hn : isNewline c = true
    · rw [stripNewlines_cons_newline c cs hn] at h
      simp [skipNewlines, hn, skipNewlines_of_strip_nil cs h]
    · rw [stripNewlines_cons_other c cs hn] at h
      exact absurd h (by simp)

theorem skipNewlines_of_strip_cons : ∀ (cs : List Char) (y : Char) (s : List Char),
    stripNewlines cs = y :: s → ∃ ds, skipNewlines cs = y :: ds ∧ stripNewlines ds = s
  | [], _, _, h => by simp [stripNewlines] at h
  | c :: cs, y, s, h => by
    by_cases hn : isNewline c = true
    · rw [stripNewlines_cons_newline c cs hn] at h
      obtain ⟨ds, h1, h2⟩ := skipNewlines_of_strip_cons cs y s h
      exact ⟨ds, by simp [skipNewlines, hn, h1], h2⟩
    · rw [stripNewlines_cons_other c cs hn] at h
      have hc : c = y := (List.cons.inj h).1
      have hs : stripNewlines cs = s := (List.cons.inj h).2
      subst hc
      exact ⟨cs, by simp [skipNewlines, hn], hs⟩

theorem quantumLoop_strip_nil : ∀ (src : List Char), stripNewlines src = [] →
    quantumLoop src [] = Quantum.atEnd
  | [], _ => by simp [quantumLoop]
  | c :: cs, h => by
    by_cases hn : isNewline c = true
    · rw [stripNewlines_cons_newline c cs hn] at h
      rw [quantumLoop_newline c cs [] (by simp) hn]
      exact quantumLoop_strip_nil cs h
    · rw [stripNewlines_cons_other c cs hn] at h
      exact absurd h (by simp)

theorem quantumLoop_next_symbol : ∀ (src : List Char) (dbuf : List Nat) (x : Char)
    (s : List Char), dbuf.length < 4 → stripNewlines src = x :: s → inAlphabet x = true →
    ∃ src2, quantumLoop src dbuf = quantumLoop src2 (dbuf ++ [decodeMap x]) ∧
      stripNewlines src2 = s ∧ src2.length < src.length
  | [], _, _, _, _, h, _ => by simp [stripNewlines] at h
  | c :: cs, dbuf, x, s, hlen, h, hx => by
    by_cases hn : isNewline c = true
    · rw [stripNewlines_cons_newline c cs hn] at h
      obtain ⟨src2, h1, h2, h3⟩ := quantumLoop_next_symbol cs dbuf x s hlen h hx
      refine ⟨src2, ?_, h2, by simp; omega⟩
      rw [quantumLoop_newline c cs dbuf hlen hn]
      exact h1
    · rw [stripNewlines_cons_other c cs hn] at h
      have hc : c = x := (List.cons.inj h).1
      have hs : stripNewlines cs = s := (List.cons.inj h).2
      subst hc
      have h4 : ¬ 4 ≤ dbuf.length := by omega
      have hsym : decodeMap c ≠ 0xff := (decodeMap_ne_iff c).mpr hx
      exact ⟨cs, by simp only [quantumLoop, h4, if_false, hsym, ne_eq, not_false_eq_true,
        if_true], hs, by simp⟩

theorem quantumLoop_last_pad : ∀ (src : List Char) (dbuf : List Nat), dbuf.length = 3 →
    stripNewlines src = [padChar] → quantumLoop src dbuf = Quantum.filled dbuf 3 [] false
  | [], _, _, h => by simp [stripNewlines] at h
  | c :: cs, dbuf, hlen, h => by
    by_cases hn : isNewline c = true
    · rw [stripNewlines_cons_newline c cs hn] at h
      rw [quantumLoop_newline c cs dbuf (by omega) hn]
      exact quantumLoop_last_pad cs dbuf hlen h
    · rw [stripNewlines_cons_other c cs hn] at h
      have hc : c = padChar := (List.cons.inj h).1
      have hs : stripNewlines cs = [] := (List.cons.inj h).2
      subst hc
      have hskip := skipNewlines_of_strip_nil cs hs
      have e : decodeMap padChar = 255 := by decide
      simp [quantumLoop, hlen, e, hn, hskip]

theorem quantumLoop_two_pads : ∀ (src : List Char) (dbuf : List Nat), dbuf.length = 2 →
    stripNewlines src = [padChar, padChar] →
    quantumLoop src dbuf = Quantum.filled dbuf 2 [] false
  | [], _, _, h => by simp [stripNewlines] at h
  | c :: cs, dbuf, hlen, h => by
    by_cases hn : isNewline c = true
    · rw [stripNewlines_cons_newline c cs hn] at h
      rw [quantumLoop_newline c cs dbuf (by omega) hn]
      exact quantumLoop_two_pads cs dbuf hlen h
    · rw [stripNewlines_cons_other c cs hn] at h
      have hc : c = padChar := (List.cons.inj h).1
      have hs : stripNewlines cs = [padChar] := (List.cons.inj h).2
      subst hc
      obtain ⟨ds, h1, h2⟩ := skipNewlines_of_strip_cons cs padChar [] hs
      have hskip := skipNewlines_of_strip_nil ds h2
      have e : decodeMap padChar = 255 := by decide
      simp [quantumLoop, hlen, e, hn, h1, hskip]

theorem decodeQuantum_of_wellFormed (src : List Char)
    (h : wellFormed (stripNewlines src) = true) :
    ∃ rest out, decodeQuantum src = some (rest, out) ∧
      wellFormed (stripNewlines rest) = true ∧ (src ≠ [] → rest.length < src.length) := by
  match hs : stripNewlines src, h with
  | [], _ =>
    refine ⟨[], [], by simp [decodeQuantum, quantumLoop_strip_nil src hs], rfl, ?_⟩
    intro hne
    cases src with
    | nil => exact absurd rfl hne
    | cons c cs => simp
  | [_], h => simp [wellFormed] at h
  | [_, _], h => simp [wellFormed] at h
  | [_, _, _], h => simp [wellFormed] at h
  | a :: b :: c :: d :: r, h =>
    simp only [wellFormed, Bool.and_eq_true, Bool.or_eq_true, beq_iff_eq] at h
    obtain ⟨⟨ha, hb⟩, hcase⟩ := h
    obtain ⟨src1, e1, s1, l1⟩ := quantumLoop_next_symbol src [] a _ (by simp) hs ha
    obtain ⟨src2, e2, s2, l2⟩ := quantumLoop_next_symbol src1 ([] ++ [decodeMap a]) b _ (by simp) s1 hb
    rcases hcase with ⟨⟨hc, hd⟩, hrest⟩ | ⟨⟨hnil, hd⟩, hc | hc⟩
    · obtain ⟨src3, e3, s3, l3⟩ := quantumLoop_next_symbol src2 ([] ++ [decodeMap a] ++ [decodeMap b]) c _
        (by simp) s2 hc
      obtain ⟨src4, e4, s4, l4⟩ := quantumLoop_next_symbol src3
        ([] ++ [decodeMap a] ++ [decodeMap b] ++ [decodeMap c]) d _ (by simp) s3 hd
      have e5 := quantumLoop_full src4 ([] ++ [decodeMap a] ++ [decodeMap b] ++ [decodeMap c] ++
        [decodeMap d]) (by simp)
      have e : quantumLoop src [] = _ := e1.trans (e2.trans (e3.trans (e4.trans e5)))
      simp only [decodeQuantum, e]
      exact ⟨_, _, rfl, by rw [s4]; exact hrest, fun _ => by omega⟩
    · subst hnil
      subst hd
      obtain ⟨src3, e3, s3, l3⟩ := quantumLoop_next_symbol src2 ([] ++ [decodeMap a] ++ [decodeMap b]) c _
        (by simp) s2 hc
      have e5 := quantumLoop_last_pad src3 ([] ++ [decodeMap a] ++ [decodeMap b] ++
        [decodeMap c]) (by simp) s3
      have e : quantumLoop src [] = _ := e1.trans (e2.trans (e3.trans e5))
      simp only [decodeQuantum, e]
      exact ⟨_, _, rfl, rfl, fun _ => by simp; omega⟩
    · subst hnil
      subst hd
      subst hc
      have e5 := quantumLoop_two_pads src2 ([] ++ [decodeMap a] ++ [decodeMap b]) (by simp) s2
      have e : quantumLoop src [] = _ := e1.trans (e2.trans e5)
      simp only [decodeQuantum, e]
      exact ⟨_, _, rfl, rfl, fun _ => by simp; omega⟩

theorem decodeLoop_of_wellFormed : ∀ (fuel : Nat) (src : List Char), src.length ≤ fuel →
    wellFormed (stripNewlines src) = true → ∃ out, decodeLoop fuel src = some out
  | _, [], _, _ => ⟨[], by simp [decodeLoop]⟩
  | 0, _ :: _, hlen, _ => by simp at hlen
  | fuel + 1, c :: cs, hlen, h => by
    obtain ⟨rest, out, hq, hw, hl⟩ := decodeQuantum_of_wellFormed (c :: cs) h
    have hl2 := hl (by simp)
    simp only [List.length_cons] at hlen hl2
    obtain ⟨more, hm⟩ := decodeLoop_of_wellFormed fuel rest (by omega) hw
    exact ⟨out ++ more, by simp [decodeLoop, hq, hm]⟩

/-- The decoder fails exactly on the texts that are not well formed once carriage returns
and line feeds are left out; in particular it never fails for lack of fuel. -/
theorem DecodeString_eq_none_iff (t : String) :
    DecodeString t = none ↔ wellFormed (stripNewlines t.data) = false := by
  constructor
  · intro h
    cases hw : wellFormed (stripNewlines t.data) with
    | false => rfl
    | true =>
      obtain ⟨out, ho⟩ := decodeLoop_of_wellFormed t.data.length t.data (Nat.le_refl _) hw
      unfold DecodeString at h
      rw [h] at ho
      exact Option.noConfusion ho
  · intro h
    cases hd : DecodeString t with
    | none => rfl
    | some out =>
      have := wellFormed_of_decodeLoop _ _ _ hd
      rw [h] at this
      exact Bool.noConfusion this

end Base64

/-! Theorems on cleaning and joining paths. -/

namespace filepath

theorem splitAux_append_sep (a b cur : List Char) :
    splitAux (a ++ Separator :: b) cur = splitAux a cur ++ splitAux b [] := by
  induction a generalizing cur with
  | nil => simp [splitAux]
  | cons c a ih =>
    by_cases hc : c = Separator
    · simp [splitAux, hc, ih]
    · simp [splitAux, hc, ih]

theorem splitAux_no_sep (a cur : List Char) (hcur : Separator ∉ cur) :
    ∀ e ∈ splitAux a cur, Separator ∉ e := by
  induction a generalizing cur with
  | nil =>
    intro e he
    simp only [splitAux, List.mem_singleton] at he
    subst he
    simpa using hcur
  | cons c a ih =>
    intro e he
    by_cases hc : c = Separator
    · simp only [splitAux, hc, if_true, List.mem_cons] at he
      rcases he with rfl | he
      · simpa using hcur
      · exact ih [] (by simp) e he
    · simp only [splitAux, hc, if_false] at he
      refine ih (c :: cur) ?_ e he
      simp only [List.mem_cons, not_or]
      exact ⟨fun h => hc h.symm, hcur⟩

theorem elements_no_sep (a : List Char) : ∀ e ∈ elements a, Separator ∉ e :=
  splitAux_no_sep a [] (by simp)

theorem splitAux_element (e cur : List Char) (he : Separator ∉ e) :
    splitAux e cur = [cur.reverse ++ e] := by
  induction e generalizing cur with
  | nil => simp [splitAux]
  | cons c e ih =>
    simp only [List.mem_cons, not_or] at he
    have hc : ¬ c = Separator := fun h => he.1 h.symm
    simp [splitAux, hc, ih (c :: cur) he.2]

theorem elements_intercalate : ∀ (es : List (List Char)), es ≠ [] →
    (∀ e ∈ es, Separator ∉ e) → elements (List.intercalate [Separator] es) = es
  | [], h, _ => absurd rfl h
  | [e], _, hs => by
    have := splitAux_element e [] (hs e (by simp))
    simpa [elements, List.intercalate, List.intersperse] using this
  | e :: e2 :: es, _, hs => by
    have ih := elements_intercalate (e2 :: es) (by simp) (fun x hx => hs x (by simp [hx]))
    have he := splitAux_element e [] (hs e (by simp))
    have hcat : List.intercalate [Separator] (e :: e2 :: es) =
        e ++ Separator :: List.intercalate [Separator] (e2 :: es) := by
      simp [List.intercalate, List.intersperse]
    unfold elements at ih ⊢
    rw [hcat, splitAux_append_sep, he, ih]
    simp

theorem cleanLoop_plain (rooted : Bool) : ∀ (es out : List (List Char)) (dotdot : Nat),
    (∀ e ∈ es, Plain e) → cleanLoop rooted es out dotdot = out ++ es
  | [], out, _, _ => by simp [cleanLoop]
  | e :: es, out, dotdot, h => by
    obtain ⟨h1, h2, h3, _⟩ := h e (by simp)
    have ih := cleanLoop_plain rooted es (out ++ [e]) dotdot (fun x hx => h x (by simp [hx]))
    simp [cleanLoop, h1, h2, h3, ih]

theorem cleaned_append (rooted : Bool) (out more : List (List Char)) (dotdot : Nat)
    (h : Cleaned rooted out dotdot) (hm : ∀ e ∈ more, Plain e) :
    Cleaned rooted (out ++ more) dotdot := by
  obtain ⟨tail, ho, ht, hr⟩ := h
  refine ⟨tail ++ more, by rw [ho, List.append_assoc], ?_, hr⟩
  intro e he
  rcases List.mem_append.mp he with he | he
  · exact ht e he
  · exact hm e he

theorem cleanLoop_append (rooted : Bool) : ∀ (A out : List (List Char)) (dotdot : Nat),
    (∀ e ∈ A, Separator ∉ e) → Cleaned rooted out dotdot →
    ∃ out2 dotdot2, Cleaned rooted out2 dotdot2 ∧
      ∀ B, cleanLoop rooted (A ++ B) out dotdot = cleanLoop rooted B out2 dotdot2
  | [], out, dotdot, _, hc => ⟨out, dotdot, hc, fun B => by simp⟩
  | e :: A, out, dotdot, hs, hc => by
    have hA : ∀ x ∈ A, Separator ∉ x := fun x hx => hs x (by simp [hx])
    have hsep : Separator ∉ e := hs e (by simp)
    by_cases h1 : e = []
    · obtain ⟨o2, d2, hc2, hB⟩ := cleanLoop_append rooted A out dotdot hA hc
      exact ⟨o2, d2, hc2, fun B => by simp [cleanLoop, h1, hB B]⟩
    · by_cases h2 : e = ['.']
      · obtain ⟨o2, d2, hc2, hB⟩ := cleanLoop_append rooted A out dotdot hA hc
        exact ⟨o2, d2, hc2, fun B => by simp [cleanLoop, h2, hB B]⟩
      · by_cases h3 : e = dotdotElem
        · obtain ⟨tail, ho, ht, hr⟩ := hc
          by_cases hlen : out.length > dotdot
          · have hc2 : Cleaned rooted out.dropLast dotdot := by
              have htne : tail ≠ [] := by
                intro hnil
                rw [ho, hnil] at hlen
                simp at hlen
              refine ⟨tail.dropLast, ?_, fun x hx => ht x (List.mem_of_mem_dropLast hx), hr⟩
              rw [ho, List.dropLast_append_of_ne_nil _ htne]
            obtain ⟨o2, d2, hc3, hB⟩ := cleanLoop_append rooted A out.dropLast dotdot hA hc2
            exact ⟨o2, d2, hc3, fun B => by
              simp only [List.cons_append, cleanLoop, h3, hlen, if_true]
              simpa [dotdotElem] using hB B⟩
          · cases hroot : rooted with
            | false =>
              have htnil : tail = [] := by
                rw [ho] at hlen
                simpa using hlen
              have hout : out = List.replicate dotdot dotdotElem := by
                rw [ho, htnil, List.append_nil]
              have hc2 : Cleaned false (out ++ [dotdotElem]) (out.length + 1) := by
                refine ⟨[], ?_, by simp, by simp⟩
                rw [hout]
                simp [List.replicate_succ']
              subst hroot
              obtain ⟨o2, d2, hc3, hB⟩ :=
                cleanLoop_append false A (out ++ [dotdotElem]) (out.length + 1) hA hc2
              exact ⟨o2, d2, hc3, fun B => by
                simp only [List.cons_append, cleanLoop, h3, hlen, if_false]
                simpa [dotdotElem] using hB B⟩
            | true =>
              subst hroot
              obtain ⟨o2, d2, hc3, hB⟩ :=
                cleanLoop_append true A out dotdot hA ⟨tail, ho, ht, hr⟩
              exact ⟨o2, d2, hc3, fun B => by
                simp only [List.cons_append, cleanLoop, h3, hlen, if_false]
                simpa [dotdotElem] using hB B⟩
        · have hc2 : Cleaned rooted (out ++ [e]) dotdot :=
            cleaned_append rooted out [e] dotdot hc (by
              intro x hx
              rw [List.mem_singleton] at hx
              subst hx
              exact ⟨h1, h2, h3, hsep⟩)
          obtain ⟨o2, d2, hc3, hB⟩ := cleanLoop_append rooted A (out ++ [e]) dotdot hA hc2
          exact ⟨o2, d2, hc3, fun B => by simp [cleanLoop, h1, h2, h3, hB B]⟩

theorem cleanLoop_dotdots (tail : List (List Char)) (ht : ∀ e ∈ tail, Plain e) :
    ∀ (k j : Nat), cleanLoop false (List.replicate k dotdotElem ++ tail)
      (List.replicate j dotdotElem) j = List.replicate (j + k) dotdotElem ++ tail
  | 0, j => by
    simp only [List.replicate_zero, List.nil_append, Nat.add_zero]
    exact cleanLoop_plain false tail _ j ht
  | k + 1, j => by
    have ih := cleanLoop_dotdots tail ht k (j + 1)
    have h1 : dotdotElem ≠ [] := by decide
    have h2 : dotdotElem ≠ ['.'] := by decide
    rw [List.replicate_succ, List.cons_append]
    simp only [cleanLoop, h1, h2, if_false, if_true, List.length_replicate, gt_iff_lt,
      Nat.lt_irrefl, Bool.not_false]
    rw [← List.replicate_succ', ih]
    congr 2
    omega

theorem isRooted_intercalate (es : List (List Char)) (hne : es ≠ [])
    (h : ∀ e ∈ es, e ≠ [] ∧ Separator ∉ e) :
    isRooted (List.intercalate [Separator] es) = false := by
  match es, hne, h with
  | e :: rest, _, h =>
    obtain ⟨h1, h2⟩ := h e (by simp)
    match e, h1, h2 with
    | c :: cs, _, h2 =>
      have hc : ¬ c = Separator := fun hc => h2 (by simp [hc])
      cases rest with
      | nil => simp [List.intercalate, List.intersperse, isRooted, hc]
      | cons e2 rest => simp [List.intercalate, List.intersperse, isRooted, hc]

theorem cleaned_elements (rooted : Bool) (es : List (List Char)) (dotdot : Nat)
    (h : Cleaned rooted es dotdot) : ∀ e ∈ es, e ≠ [] ∧ Separator ∉ e := by
  obtain ⟨tail, ho, ht, _⟩ := h
  intro e he
  rw [ho] at he
  rcases List.mem_append.mp he with he | he
  · have := List.eq_of_mem_replicate he
    subst this
    exact ⟨by decide, by decide⟩
  · exact ⟨(ht e he).1, (ht e he).2.2.2⟩

/-- Cleaning the text of a cleaned path gives the same elements: `Clean` is idempotent. -/
theorem clean_render (rooted : Bool) (es : List (List Char)) (dotdot : Nat)
    (h : Cleaned rooted es dotdot) :
    isRooted (render rooted es) = rooted ∧ cleanElements (render rooted es) = es := by
  have hel := cleaned_elements rooted es dotdot h
  obtain ⟨tail, ho, ht, hr⟩ := h
  cases rooted with
  | true =>
    have hd : dotdot = 0 := hr rfl
    subst hd
    simp only [List.replicate_zero, List.nil_append] at ho
    subst ho
    refine ⟨by simp [render, isRooted], ?_⟩
    by_cases hnil : es = []
    · subst hnil
      decide
    · have hsplit := elements_intercalate es hnil (fun e he => (hel e he).2)
      have hcons : elements (Separator :: List.intercalate [Separator] es) = [] :: es := by
        have := splitAux_append_sep [] (List.intercalate [Separator] es) []
        unfold elements at hsplit ⊢
        simp only [List.nil_append] at this
        rw [this, hsplit]
        rfl
      simp only [cleanElements, render, if_true, hcons, isRooted, beq_self_eq_true]
      simp only [cleanLoop, if_true]
      simpa using cleanLoop_plain true es [] 0 ht
  | false =>
    by_cases hnil : es = []
    · subst hnil
      decide
    · have hsplit := elements_intercalate es hnil (fun e he => (hel e he).2)
      have hroot := isRooted_intercalate es hnil hel
      simp only [render, Bool.false_eq_true, if_false, hnil, hroot, cleanElements, hsplit,
        true_and]
      have := cleanLoop_dotdots tail ht dotdot 0
      simp only [List.replicate_zero, Nat.zero_add] at this
      rw [ho]
      exact this

/-- The model of `Clean` on rows of the table the Go library tests it with. -/
theorem Clean_samples :
    Clean "" = "." ∧ Clean "abc" = "abc" ∧ Clean "abc/" = "abc" ∧ Clean "/" = "/" ∧
    Clean "abc//def//ghi" = "abc/def/ghi" ∧ Clean "//abc//" = "/abc" ∧
    Clean "abc/./def" = "abc/def" ∧ Clean "abc/def/ghi/../jkl" = "abc/def/jkl" ∧
    Clean "abc/def/../../.." = ".." ∧ Clean "/abc/def/../../.." = "/" ∧
    Clean "abc/def/../../../ghi/jkl/../../../mno" = "../../mno" ∧
    Clean "/../abc" = "/abc" ∧ Clean "abc/../../././../def" = "../../def" := by
  decide

/-- The model of `Join` on rows of the table the Go library tests it with. -/
theorem Join_samples :
    Join ["a", "b"] = "a/b" ∧ Join ["a", ""] = "a" ∧ Join ["", "b"] = "b" ∧
    Join ["", ""] = "" ∧ Join ["/", "a"] = "/a" ∧ Join ["/", ""] = "/" ∧
    Join ["//", "a"] = "/a" ∧ Join ["/a", "b"] = "/a/b" ∧ Join ["a/", "b"] = "a/b" ∧
    Join ["a/", ""] = "a" := by
  decide

theorem data_ne_nil (s : String) (h : s ≠ "") : s.data ≠ [] := by
  intro hd
  apply h
  cases s
  simp_all

theorem intercalate_two (dir n : String) :
    (String.intercalate "/" [dir, n]).data = dir.data ++ Separator :: n.data := by
  simp [String.intercalate, String.intercalate.go, Separator]

theorem isRooted_append (a b : List Char) (h : a ≠ []) : isRooted (a ++ b) = isRooted a := by
  cases a with
  | nil => exact absurd rfl h
  | cons c a => rfl

theorem join_two (dir n : String) (hdir : dir ≠ "") :
    Join [dir, n] = String.mk (render (isRooted dir.data)
      (cleanLoop (isRooted dir.data) (elements dir.data ++ elements n.data) [] 0)) := by
  have hx : String.intercalate "/" [dir, n] ≠ "" := by
    intro h
    have := congrArg String.data h
    rw [intercalate_two] at this
    simp at this
  simp only [Join, hdir, if_false, Clean, hx, cleanElements, intercalate_two,
    isRooted_append _ _ (data_ne_nil dir hdir)]
  unfold elements
  rw [splitAux_append_sep]

theorem cleanLoop_keeps_dotdot : ∀ (B out : List (List Char)) (dotdot : Nat),
    1 ≤ dotdot → dotdot ≤ out.length → out.head? = some dotdotElem →
    (cleanLoop false B out dotdot).head? = some dotdotElem
  | [], _, _, _, _, hh => hh
  | e :: B, out, dotdot, h1, h2, hh => by
    have happ : ∀ x : List Char, (out ++ [x]).head? = some dotdotElem := by
      intro x
      cases out with
      | nil => simp at h2; omega
      | cons a as => simpa using hh
    by_cases he1 : e = []
    · simp only [cleanLoop, he1, if_true]
      exact cleanLoop_keeps_dotdot B out dotdot h1 h2 hh
    · by_cases he2 : e = ['.']
      · simp only [cleanLoop, he2, List.cons_ne_nil, if_false, if_true]
        exact cleanLoop_keeps_dotdot B out dotdot h1 h2 hh
      · by_cases he3 : e = dotdotElem
        · by_cases hlen : out.length > dotdot
          · simp only [cleanLoop, he1, he2, he3, hlen, if_false, if_true]
            refine cleanLoop_keeps_dotdot B out.dropLast dotdot h1 (by simp; omega) ?_
            match out, hlen, hh with
            | [a], hlen, _ => simp at hlen; omega
            | a :: b :: as, _, hh => simpa using hh
          · simp only [cleanLoop, he1, he2, he3, hlen, if_false, if_true, Bool.not_false]
            exact cleanLoop_keeps_dotdot B (out ++ [dotdotElem]) (out.length + 1)
              (by omega) (by simp) (happ _)
        · simp only [cleanLoop, he1, he2, he3, if_false]
          exact cleanLoop_keeps_dotdot B (out ++ [e]) dotdot h1 (by simp; omega) (happ _)

theorem cleaned_length (rooted : Bool) (out : List (List Char)) (dotdot : Nat)
    (h : Cleaned rooted out dotdot) : dotdot ≤ out.length := by
  obtain ⟨tail, ho, _, _⟩ := h
  rw [ho]
  simp

/-- The elements of a name that does not climb are cleaned on top of the elements of the
directory, which stay as they are. -/
theorem cleanLoop_relative (rooted : Bool) (R : List (List Char)) (dotdot : Nat)
    (hR : dotdot ≤ R.length) : ∀ (B S : List (List Char)),
    (∀ e ∈ B, Separator ∉ e) → (∀ e ∈ S, Plain e) →
    (cleanLoop false B S 0).head? ≠ some dotdotElem →
    ∃ more, (∀ e ∈ more, Plain e) ∧ cleanLoop rooted B (R ++ S) dotdot = R ++ more
  | [], S, _, hS, _ => ⟨S, hS, by simp [cleanLoop]⟩
  | e :: B, S, hB, hS, hh => by
    have hB2 : ∀ x ∈ B, Separator ∉ x := fun x hx => hB x (by simp [hx])
    by_cases he1 : e = []
    · simp only [cleanLoop, he1, if_true] at hh ⊢
      exact cleanLoop_relative rooted R dotdot hR B S hB2 hS hh
    · by_cases he2 : e = ['.']
      · simp only [cleanLoop, he2, List.cons_ne_nil, if_false, if_true] at hh ⊢
        exact cleanLoop_relative rooted R dotdot hR B S hB2 hS hh
      · by_cases he3 : e = dotdotElem
        · by_cases hS0 : S = []
          · exfalso
            subst hS0
            simp only [cleanLoop, he1, he2, he3, if_false, if_true, List.length_nil,
              gt_iff_lt, Nat.lt_irrefl, Bool.not_false, List.nil_append, Nat.zero_add] at hh
            exact hh (cleanLoop_keeps_dotdot B [dotdotElem] 1 (Nat.le_refl 1) (by simp) rfl)
          · have hpos : 0 < S.length := List.length_pos.mpr hS0
            have hlenS : S.length > 0 := hpos
            have hlen : (R ++ S).length > dotdot := by simp; omega
            simp only [cleanLoop, he1, he2, he3, hlenS, if_false, if_true] at hh
            simp only [cleanLoop, he1, he2, he3, hlen, if_false, if_true]
            rw [List.dropLast_append_of_ne_nil _ hS0]
            exact cleanLoop_relative rooted R dotdot hR B S.dropLast hB2
              (fun x hx => hS x (List.mem_of_mem_dropLast hx)) hh
        · have hplain : ∀ x ∈ S ++ [e], Plain x := by
            intro x hx
            rcases List.mem_append.mp hx with hx | hx
            · exact hS x hx
            · rw [List.mem_singleton] at hx
              subst hx
              exact ⟨he1, he2, he3, hB x (by simp)⟩
          simp only [cleanLoop, he1, he2, he3, if_false] at hh
          simp only [cleanLoop, he1, he2, he3, if_false]
          rw [List.append_assoc]
          exact cleanLoop_relative rooted R dotdot hR B (S ++ [e]) hB2 hplain hh

/-- A name that does not climb above its starting directory is joined to a path inside the
directory. -/
theorem inside_join (dir n : String) (hdir : dir ≠ "") (h : climbsAbove n = false) :
    inside dir (Join [dir, n]) = true := by
  have hh : (cleanLoop false (elements n.data) [] 0).head? ≠ some dotdotElem := by
    intro hc
    simp [climbsAbove, hc] at h
  obtain ⟨out2, d2, hc2, hB⟩ := cleanLoop_append (isRooted dir.data) (elements dir.data) [] 0
    (elements_no_sep _) ⟨[], by simp, by simp, fun _ => rfl⟩
  obtain ⟨more, hp, hm⟩ := cleanLoop_relative (isRooted dir.data) out2 d2
    (cleaned_length _ _ _ hc2) (elements n.data) [] (elements_no_sep _) (by simp) hh
  rw [List.append_nil] at hm
  have hroot : cleanElements dir.data = out2 := by
    have := hB []
    simpa [cleanElements, cleanLoop] using this
  have hidem := clean_render (isRooted dir.data) (out2 ++ more) d2
    (cleaned_append _ _ _ _ hc2 hp)
  rw [join_two dir n hdir, hB, hm]
  simp only [inside, hidem.1, hidem.2, hroot, beq_self_eq_true, Bool.true_and,
    List.drop_left, Bool.and_eq_true, Bool.not_eq_true', List.isPrefixOf_iff_prefix]
  refine ⟨List.prefix_append _ _, ?_⟩
  cases hcon : more.contains dotdotElem with
  | false => rfl
  | true =>
    have hmem : dotdotElem ∈ more := by simpa using hcon
    exact absurd rfl (hp _ hmem).2.2.1

theorem splitAux_length (a cur : List Char) :
    ∀ e ∈ splitAux a cur, e.length ≤ a.length + cur.length := by
  induction a generalizing cur with
  | nil =>
    intro e he
    simp only [splitAux, List.mem_singleton] at he
    subst he
    simp
  | cons c a ih =>
    intro e he
    by_cases hc : c = Separator
    · simp only [splitAux, hc, if_true, List.mem_cons] at he
      rcases he with rfl | he
      · simp
      · have := ih [] e he
        simp at this ⊢
        omega
    · simp only [splitAux, hc, if_false] at he
      have := ih (c :: cur) e he
      simp at this ⊢
      omega

theorem cleanLoop_rooted_mem : ∀ (B out : List (List Char)) (dotdot : Nat),
    ∀ x ∈ cleanLoop true B out dotdot, x ∈ out ∨ x ∈ B
  | [], _, _, x, hx => Or.inl hx
  | e :: B, out, dotdot, x, hx => by
    by_cases he1 : e = []
    · simp only [cleanLoop, he1, if_true] at hx
      rcases cleanLoop_rooted_mem B out dotdot x hx with h | h
      · exact Or.inl h
      · exact Or.inr (by simp [h])
    · by_cases he2 : e = ['.']
      · simp only [cleanLoop, he2, List.cons_ne_nil, if_false, if_true] at hx
        rcases cleanLoop_rooted_mem B out dotdot x hx with h | h
        · exact Or.inl h
        · exact Or.inr (by simp [h])
      · by_cases he3 : e = dotdotElem
        · by_cases hlen : out.length > dotdot
          · simp only [cleanLoop, he1, he2, he3, hlen, if_false, if_true] at hx
            rcases cleanLoop_rooted_mem B out.dropLast dotdot x hx with h | h
            · exact Or.inl (List.mem_of_mem_dropLast h)
            · exact Or.inr (by simp [h])
          · simp only [cleanLoop, he1, he2, he3, hlen, if_false, if_true, Bool.not_true,
              Bool.false_eq_true] at hx
            rcases cleanLoop_rooted_mem B out dotdot x hx with h | h
            · exact Or.inl h
            · exact Or.inr (by simp [h])
        · simp only [cleanLoop, he1, he2, he3, if_false] at hx
          rcases cleanLoop_rooted_mem B (out ++ [e]) dotdot x hx with h | h
          · rcases List.mem_append.mp h with h | h
            · exact Or.inl h
            · exact Or.inr (by simp at h; simp [h])
          · exact Or.inr (by simp [h])

/-- Under a rooted directory whose one element `r0` does not occur in the name, a name that
climbs removes `r0` for good. -/
theorem cleanLoop_climb (r0 : List Char) : ∀ (B S : List (List Char)),
    r0 ∉ B → r0 ∉ S → dotdotElem ∉ S →
    (cleanLoop false B S 0).head? = some dotdotElem →
    (cleanLoop true B (r0 :: S) 0).head? ≠ some r0
  | [], S, _, _, hS, hh => by
    simp only [cleanLoop] at hh
    exact absurd (List.mem_of_mem_head? hh) hS
  | e :: B, S, hB, hr, hS, hh => by
    have hB2 : r0 ∉ B := fun h => hB (by simp [h])
    have her : e ≠ r0 := fun h => hB (by simp [h])
    by_cases he1 : e = []
    · simp only [cleanLoop, he1, if_true] at hh ⊢
      exact cleanLoop_climb r0 B S hB2 hr hS hh
    · by_cases he2 : e = ['.']
      · simp only [cleanLoop, he2, List.cons_ne_nil, if_false, if_true] at hh ⊢
        exact cleanLoop_climb r0 B S hB2 hr hS hh
      · by_cases he3 : e = dotdotElem
        · have hlen : (r0 :: S).length > 0 := by simp
          simp only [cleanLoop, he1, he2, he3, hlen, if_false, if_true]
          by_cases hS0 : S = []
          · subst hS0
            intro hc
            rcases cleanLoop_rooted_mem B [] 0 r0 (List.mem_of_mem_head? hc) with h | h
            · simp at h
            · exact hB2 h
          · have hlenS : S.length > 0 := List.length_pos.mpr hS0
            simp only [cleanLoop, he1, he2, he3, hlenS, if_false, if_true] at hh
            have hdl : (r0 :: S).dropLast = r0 :: S.dropLast := by
              cases S with
              | nil => exact absurd rfl hS0
              | cons a as => rfl
            rw [hdl]
            exact cleanLoop_climb r0 B S.dropLast hB2
              (fun h => hr (List.mem_of_mem_dropLast h))
              (fun h => hS (List.mem_of_mem_dropLast h)) hh
        · simp only [cleanLoop, he1, he2, he3, if_false] at hh ⊢
          rw [List.cons_append]
          refine cleanLoop_climb r0 B (S ++ [e]) hB2 ?_ ?_ hh
          · simp only [List.mem_append, List.mem_singleton, not_or]
            exact ⟨hr, fun h => her h.symm⟩
          · simp only [List.mem_append, List.mem_singleton, not_or]
            exact ⟨hS, fun h => he3 h.symm⟩

/-- A name that climbs is joined outside the rooted directory with the one element `r0`,
when `r0` is not an element of the name. -/
theorem climbing_name_escapes_root (n : String) (r0 : List Char) (hp : Plain r0)
    (hnotin : r0 ∉ elements n.data) (h : climbsAbove n = true) :
    inside (String.mk (Separator :: r0)) (Join [String.mk (Separator :: r0), n]) = false := by
  have hh : (cleanLoop false (elements n.data) [] 0).head? = some dotdotElem := by
    simpa [climbsAbove] using h
  obtain ⟨h1, h2, h3, hsep⟩ := hp
  have hel : elements (Separator :: r0) = [[], r0] := by
    have := splitAux_append_sep [] r0 []
    simp only [List.nil_append] at this
    unfold elements
    rw [this, splitAux_element _ [] hsep]
    rfl
  have hstart : ∀ B, cleanLoop true ([[], r0] ++ B) [] 0 = cleanLoop true B [r0] 0 := by
    intro B
    simp [cleanLoop, h1, h2, h3]
  have hdir : String.mk (Separator :: r0) ≠ "" := by
    intro hc
    have := congrArg String.data hc
    simp at this
  have hclimb := cleanLoop_climb r0 (elements n.data) [] hnotin (by simp) (by simp) hh
  obtain ⟨out2, d2, hc2, hB⟩ := cleanLoop_append true ([[], r0] ++ elements n.data) [] 0
    (by
      intro e he
      rcases List.mem_append.mp he with he | he
      · simp only [List.mem_cons, List.mem_singleton, List.mem_nil_iff, or_false] at he
        rcases he with rfl | rfl
        · simp
        · exact hsep
      · exact elements_no_sep _ e he)
    ⟨[], by simp, by simp, fun _ => rfl⟩
  have hE : cleanLoop true ([[], r0] ++ elements n.data) [] 0 = out2 := by
    have := hB []
    simpa [cleanLoop] using this
  have hidem := clean_render true out2 d2 hc2
  have hrooted : isRooted (Separator :: r0) = true := by simp [isRooted]
  have hroot : cleanElements (Separator :: r0) = [r0] := by
    have := hstart []
    simp only [List.append_nil, cleanLoop] at this
    unfold cleanElements
    rw [hrooted, hel]
    exact this
  have hhead : out2.head? ≠ some r0 := by
    rw [← hE, hstart]
    exact hclimb
  have hpre : List.isPrefixOf [r0] out2 = false := by
    cases out2 with
    | nil => rfl
    | cons a as =>
      have hne : ¬ r0 = a := by
        intro hc
        exact hhead (by simp [hc])
      simp [List.isPrefixOf, hne]
  have hjoin : Join [String.mk (Separator :: r0), n] = String.mk (render true out2) := by
    rw [join_two _ n hdir]
    show String.mk (render (isRooted (Separator :: r0))
      (cleanLoop (isRooted (Separator :: r0)) (elements (Separator :: r0) ++ elements n.data)
        [] 0)) = _
    rw [hrooted, hel, hE]
  rw [hjoin]
  show (isRooted (Separator :: r0) == isRooted (render true out2) &&
    (cleanElements (Separator :: r0)).isPrefixOf (cleanElements (render true out2)) &&
    !((cleanElements (render true out2)).drop
      (cleanElements (Separator :: r0)).length).contains dotdotElem) = false
  rw [hidem.2, hroot, hpre]
  simp

theorem plain_replicate (k : Nat) : Plain (List.replicate (k + 1) 'x') := by
  refine ⟨by simp [List.replicate_succ], by simp [List.replicate_succ], ?_, ?_⟩
  · simp [List.replicate_succ, dotdotElem]
  · intro hm
    exact absurd (List.eq_of_mem_replicate hm) (by decide)

theorem replicate_not_element (a : List Char) (k : Nat) (hk : a.length ≤ k) :
    List.replicate (k + 1) 'x' ∉ elements a := by
  intro hm
  have := splitAux_length a [] _ hm
  simp at this
  omega

/-- The names that are joined inside every storage root are exactly the names that do not
climb above the directory they start from. -/
theorem stays_inside_every_root_iff (n : String) :
    climbsAbove n = false ↔ ∀ dir : String, dir ≠ "" → inside dir (Join [dir, n]) = true := by
  constructor
  · intro h dir hdir
    exact inside_join dir n hdir h
  · intro hall
    cases hc : climbsAbove n with
    | false => rfl
    | true =>
      have hout := climbing_name_escapes_root n (List.replicate (n.data.length + 1) 'x')
        (plain_replicate _) (replicate_not_element _ _ (Nat.le_refl _)) hc
      have hin := hall (String.mk (Separator :: List.replicate (n.data.length + 1) 'x'))
        (by
          intro hcon
          have := congrArg String.data hcon
          simp at this)
      rw [hin] at hout
      exact Bool.noConfusion hout

end filepath

/-! Theorems on the file system and the handlers. -/

namespace os

theorem lookup_cons_ne (fs : FileSystem) (k q : String) (v : Node) (h : q ≠ k) :
    List.lookup q ((k, v) :: fs) = List.lookup q fs := by
  have hne : (q == k) = false := by simpa using h
  simp only [List.lookup, hne]

theorem lookup_cons_eq (fs : FileSystem) (k : String) (v : Node) :
    List.lookup k ((k, v) :: fs) = some v := by
  simp only [List.lookup, beq_self_eq_true]

theorem removeNode_cons_eq (fs : FileSystem) (k : String) (v : Node) :
    removeNode ((k, v) :: fs) k = removeNode fs k := by
  simp [removeNode]

theorem removeNode_cons_ne (fs : FileSystem) (k p : String) (v : Node) (h : k ≠ p) :
    removeNode ((k, v) :: fs) p = (k, v) :: removeNode fs p := by
  simp [removeNode, h]

theorem lookupNode_removeNode_same (fs : FileSystem) (p : String) :
    lookupNode (removeNode fs p) p = none := by
  induction fs with
  | nil => rfl
  | cons e fs ih =>
    obtain ⟨k, v⟩ := e
    by_cases hk : k = p
    · subst hk
      rw [removeNode_cons_eq]
      exact ih
    · rw [removeNode_cons_ne _ _ _ _ hk]
      unfold lookupNode at ih ⊢
      rw [lookup_cons_ne _ _ _ _ (fun h => hk h.symm)]
      exact ih

theorem lookupNode_removeNode_other (fs : FileSystem) (p q : String) (h : q ≠ p) :
    lookupNode (removeNode fs p) q = lookupNode fs q := by
  induction fs with
  | nil => rfl
  | cons e fs ih =>
    obtain ⟨k, v⟩ := e
    by_cases hk : k = p
    · subst hk
      rw [removeNode_cons_eq]
      unfold lookupNode at ih ⊢
      rw [lookup_cons_ne _ _ _ _ h]
      exact ih
    · rw [removeNode_cons_ne _ _ _ _ hk]
      unfold lookupNode at ih ⊢
      by_cases hq : q = k
      · subst hq
        rw [lookup_cons_eq, lookup_cons_eq]
      · rw [lookup_cons_ne _ _ _ _ hq, lookup_cons_ne _ _ _ _ hq]
        exact ih

theorem lookupNode_putNode_same (fs : FileSystem) (p : String) (n : Node) :
    lookupNode (putNode fs p n) p = some n := by
  unfold lookupNode putNode
  exact lookup_cons_eq _ _ _

theorem lookupNode_putNode_other (fs : FileSystem) (p q : String) (n : Node) (h : q ≠ p) :
    lookupNode (putNode fs p n) q = lookupNode fs q := by
  have := lookupNode_removeNode_other fs p q h
  unfold lookupNode putNode at *
  rw [lookup_cons_ne _ _ _ _ h]
  exact this

theorem fileContent_putNode (fs : FileSystem) (p : String) (c : List Byte) :
    fileContent (putNode fs p (Node.file c)) p = c := by
  simp [fileContent, lookupNode_putNode_same]

theorem belowFile_removeNode (fs : FileSystem) (p : String) :
    belowFile (removeNode fs p) p = belowFile fs p := by
  induction fs with
  | nil => rfl
  | cons e fs ih =>
    obtain ⟨k, v⟩ := e
    unfold belowFile at ih ⊢
    by_cases hk : k = p
    · subst hk
      rw [removeNode_cons_eq, ih]
      simp
    · rw [removeNode_cons_ne _ _ _ _ hk]
      simp only [List.any_cons, ih]

theorem belowFile_putNode (fs : FileSystem) (p : String) (n : Node) :
    belowFile (putNode fs p n) p = belowFile fs p := by
  have h := belowFile_removeNode fs p
  unfold belowFile putNode at *
  simp only [List.any_cons, bne_self_eq_false, Bool.false_and, Bool.and_false, Bool.false_or]
  exact h

end os

theorem sendErrorResponse_ne_success (m : String) : sendErrorResponse m ≠ sendSuccessResponse := by
  simp [sendErrorResponse, sendSuccessResponse, http.StatusBadRequest, http.StatusOK]

/-- A Save that answers with the success response has run every step: the body decoded,
the directory was ensured, the file opened, written, synced, closed and found by Stat. -/
theorem save_success_steps (storageDir : String) (f : Faults) (fs fs' : FileSystem)
    (req : SaveFileRequest)
    (h : handlerSaveFileToStorage storageDir f fs (post req) = (sendSuccessResponse, fs')) :
    ∃ fileData fs1 fs2,
      DecodeString req.FileBody = some fileData ∧
      MkdirAll f.MkdirAll fs storageDir = .ok fs1 ∧
      OpenFile f.OpenFile fs1 (Join [storageDir, req.FileName]) = .ok fs2 ∧
      Copy f.Copy fs2 (Join [storageDir, req.FileName]) fileData = (fs', none) ∧
      Sync f.Sync = none ∧ Close f.Close = none ∧
      errOf (Stat f.Stat fs' (Join [storageDir, req.FileName])) = none := by
  simp only [handlerSaveFileToStorage, post, ne_eq, not_true_eq_false, if_false] at h
  split at h
  · exact absurd (congrArg Prod.fst h) (sendErrorResponse_ne_success _)
  · rename_i fileData hdec
    split at h
    · exact absurd (congrArg Prod.fst h) (sendErrorResponse_ne_success _)
    · rename_i fs1 hmk
      split at h
      · exact absurd (congrArg Prod.fst h) (sendErrorResponse_ne_success _)
      · rename_i fs2 hopen
        split at h
        · exact absurd (congrArg Prod.fst h) (sendErrorResponse_ne_success _)
        · rename_i fs3 hcopy
          split at h
          · exact absurd (congrArg Prod.fst h) (sendErrorResponse_ne_success _)
          · rename_i hsync
            split at h
            · exact absurd (congrArg Prod.fst h) (sendErrorResponse_ne_success _)
            · rename_i hclose
              split at h
              · exact absurd (congrArg Prod.fst h) (sendErrorResponse_ne_success _)
              · rename_i sz hstat
                have hfs : fs3 = fs' := congrArg Prod.snd h
                subst hfs
                exact ⟨fileData, fs1, fs2, hdec, hmk, hopen, hcopy, hsync, hclose,
                  by rw [hstat]; rfl⟩

theorem openFile_ok (fault : Option Errno) (fs fs2 : FileSystem) (p : String)
    (h : OpenFile fault fs p = .ok fs2) :
    (fs2 = putNode fs p (Node.file []) ∨ fs2 = putNode fs p (Node.unreadable [])) ∧
      belowFile fs p = false := by
  unfold OpenFile at h
  split at h
  · simp at h
  · split at h
    · simp at h
    · split at h
      · simp at h
      · rename_i hb
        split at h
        · simp at h
        · exact ⟨Or.inr (by simpa using h.symm), by simpa using hb⟩
        · exact ⟨Or.inl (by simpa using h.symm), by simpa using hb⟩

theorem copy_ok (fault : Option (Nat × Errno)) (fs fs3 : FileSystem) (p : String)
    (data : List Byte) (h : Copy fault fs p data = (fs3, none)) :
    fs3 = putNode fs p (withContent fs p (fileContent fs p ++ data)) := by
  unfold Copy at h
  split at h
  · simp at h
  · simpa using (congrArg Prod.fst h).symm

theorem remove_ok (fault : Option Errno) (fs fs2 : FileSystem) (p : String)
    (h : Remove fault fs p = .ok fs2) :
    fs2 = removeNode fs p ∧ belowFile fs p = false := by
  unfold Remove at h
  split at h
  · simp at h
  · split at h
    · simp at h
    · rename_i hb
      have hb2 : belowFile fs p = false := by simpa using hb
      split at h
      · simp at h
      · exact ⟨by simpa using h.symm, hb2⟩
      · exact ⟨by simpa using h.symm, hb2⟩
      · split at h
        · simp at h
        · exact ⟨by simpa using h.symm, hb2⟩

/-- After a Save that answers with the success response the path names a regular file
that holds the decoded bytes of the body, and the path does not lead through a file. -/
theorem save_success_content (storageDir : String) (f : Faults) (fs fs' : FileSystem)
    (req : SaveFileRequest)
    (h : handlerSaveFileToStorage storageDir f fs (post req) = (sendSuccessResponse, fs')) :
    ∃ fileData, DecodeString req.FileBody = some fileData ∧
      (lookupNode fs' (Join [storageDir, req.FileName]) = some (Node.file fileData) ∨
        lookupNode fs' (Join [storageDir, req.FileName]) = some (Node.unreadable fileData)) ∧
      belowFile fs' (Join [storageDir, req.FileName]) = false := by
  obtain ⟨fileData, fs1, fs2, hdec, _, hopen, hcopy, _⟩ := save_success_steps _ _ _ _ _ h
  obtain ⟨hfs2, hb⟩ := openFile_ok _ _ _ _ hopen
  refine ⟨fileData, hdec, ?_, ?_⟩
  · rw [copy_ok _ _ _ _ _ hcopy, lookupNode_putNode_same]
    rcases hfs2 with hfs2 | hfs2
    · left
      rw [hfs2]
      simp [withContent, fileContent, lookupNode_putNode_same]
    · right
      rw [hfs2]
      simp [withContent, fileContent, lookupNode_putNode_same]
  · rw [copy_ok _ _ _ _ _ hcopy, belowFile_putNode]
    rcases hfs2 with hfs2 | hfs2 <;> rw [hfs2, belowFile_putNode] <;> exact hb

/-- Extract of a stored file answers with the encoded content when its open and its read
return no error, and with an error response otherwise; the file system is left as it
is. -/
theorem extract_of_file (storageDir : String) (f : Faults) (fs : FileSystem) (n : String)
    (c : List Byte) (hb : belowFile fs (Join [storageDir, n]) = false)
    (h : lookupNode fs (Join [storageDir, n]) = some (Node.file c)) :
    (errOf (Open f.Open fs (Join [storageDir, n])) = none →
      errOf (ReadAll f.ReadAll (Node.file c)) = none →
      handlerExtractFromStorage storageDir f fs (post ⟨n⟩) =
        (⟨http.StatusOK, "application/json",
          ResponseBody.extracted ⟨EncodeToString c, true, ""⟩⟩, fs)) ∧
    ((errOf (Open f.Open fs (Join [storageDir, n])) ≠ none ∨
        errOf (ReadAll f.ReadAll (Node.file c)) ≠ none) →
      ∃ m, handlerExtractFromStorage storageDir f fs (post ⟨n⟩) =
        (sendErrorResponse m, fs)) := by
  cases hO : f.Open with
  | some e =>
    refine ⟨fun h1 => by simp [Open, hO, errOf] at h1, fun _ => ?_⟩
    simp only [handlerExtractFromStorage, post, ne_eq, not_true_eq_false, if_false, Open, hO]
    split
    · exact ⟨_, rfl⟩
    · exact ⟨_, rfl⟩
  | none =>
    cases hR : f.ReadAll with
    | some e =>
      refine ⟨fun _ h2 => by simp [ReadAll, hR, errOf] at h2, fun _ => ?_⟩
      refine ⟨"Error reading file content", ?_⟩
      simp [handlerExtractFromStorage, post, Open, ReadAll, hO, hR, hb, h]
    | none =>
      refine ⟨fun _ _ => by simp [handlerExtractFromStorage, post, Open, ReadAll, hO, hR, hb, h],
        fun hor => ?_⟩
      rcases hor with h1 | h1
      · simp [Open, hO, hb, h, errOf] at h1
      · simp [ReadAll, hR, errOf] at h1

/-- Extract of a stored file whose mode denies reading: the open fails and the answer is
an error response. -/
theorem extract_of_unreadable (storageDir : String) (f : Faults) (fs : FileSystem)
    (n : String) (c : List Byte) (hb : belowFile fs (Join [storageDir, n]) = false)
    (h : lookupNode fs (Join [storageDir, n]) = some (Node.unreadable c)) :
    errOf (Open f.Open fs (Join [storageDir, n])) ≠ none ∧
      ∃ m, handlerExtractFromStorage storageDir f fs (post ⟨n⟩) =
        (sendErrorResponse m, fs) := by
  have hopen : ∃ e, Open f.Open fs (Join [storageDir, n]) = .error e := by
    unfold Open
    cases f.Open with
    | some e => exact ⟨e, rfl⟩
    | none => exact ⟨Errno.EACCES, by simp [hb, h]⟩
  obtain ⟨e, he⟩ := hopen
  refine ⟨by simp [he, errOf], ?_⟩
  simp only [handlerExtractFromStorage, post, ne_eq, not_true_eq_false, if_false, he]
  split
  · exact ⟨_, rfl⟩
  · exact ⟨_, rfl⟩

/-- What Extract answers for a path that names a regular file with content `c`. -/
theorem extract_of_stored (storageDir : String) (f : Faults) (fs : FileSystem) (n : String)
    (c : List Byte) (hb : belowFile fs (Join [storageDir, n]) = false)
    (h : lookupNode fs (Join [storageDir, n]) = some (Node.file c) ∨
      lookupNode fs (Join [storageDir, n]) = some (Node.unreadable c)) :
    (errOf (Open f.Open fs (Join [storageDir, n])) = none →
      errOf (ReadAll f.ReadAll (Node.file c)) = none →
      handlerExtractFromStorage storageDir f fs (post ⟨n⟩) =
        (⟨http.StatusOK, "application/json",
          ResponseBody.extracted ⟨EncodeToString c, true, ""⟩⟩, fs)) ∧
    ((errOf (Open f.Open fs (Join [storageDir, n])) ≠ none ∨
        errOf (ReadAll f.ReadAll (Node.file c)) ≠ none) →
      ∃ m, handlerExtractFromStorage storageDir f fs (post ⟨n⟩) =
        (sendErrorResponse m, fs)) := by
  rcases h with h | h
  · exact extract_of_file storageDir f fs n c hb h
  · obtain ⟨h1, h2⟩ := extract_of_unreadable storageDir f fs n c hb h
    exact ⟨fun ho => absurd ho h1, fun _ => h2⟩

/-- Extract of a path that names nothing and leads through no file answers NotFound. -/
theorem extract_of_absent (storageDir : String) (f : Faults) (fs : FileSystem) (n : String)
    (hOpen : f.Open = none) (hb : belowFile fs (Join [storageDir, n]) = false)
    (h : lookupNode fs (Join [storageDir, n]) = none) :
    handlerExtractFromStorage storageDir f fs (post ⟨n⟩) =
      (sendErrorResponse ("File not found: " ++ n), fs) := by
  simp [handlerExtractFromStorage, post, Open, hOpen, hb, h, IsNotExist]

/-- A Delete that answers with the success response has removed the entry of the path,
and the path leads through no file. -/
theorem delete_success_absent (storageDir : String) (f : Faults) (fs fs' : FileSystem)
    (n : String)
    (h : handlerDeleteFileInStorage storageDir f fs (post ⟨n⟩) = (sendSuccessResponse, fs')) :
    lookupNode fs' (Join [storageDir, n]) = none ∧
      belowFile fs' (Join [storageDir, n]) = false := by
  simp only [handlerDeleteFileInStorage, post, ne_eq, not_true_eq_false, if_false] at h
  split at h
  · exact absurd (congrArg Prod.fst h) (sendErrorResponse_ne_success _)
  · split at h
    · exact absurd (congrArg Prod.fst h) (sendErrorResponse_ne_success _)
    · rename_i fs1 hrm
      have hfs : fs1 = fs' := congrArg Prod.snd h
      subst hfs
      obtain ⟨hfs1, hb⟩ := remove_ok _ _ _ _ hrm
      rw [hfs1]
      exact ⟨lookupNode_removeNode_same _ _, by rw [belowFile_removeNode]; exact hb⟩

/-- Claim C1, amended: when Save of name n with body t answers with the success response,
the Extract of n that follows it returns Success true with the encoding of the bytes that
t decodes to, a FileBody that decodes to exactly those bytes (aGVsbG8= for the body
aGVsbG8=), whenever its own open and read of the stored file return no error; when one of
them fails, as the open does for a stored file whose mode denies reading, Extract answers
with an error response. -/
theorem C1_save_then_extract (storageDir : String) (f g : Faults) (fs fs' : FileSystem)
    (n t : String)
    (h : handlerSaveFileToStorage storageDir f fs (post ⟨t, n⟩) = (sendSuccessResponse, fs')) :
    ∃ c, DecodeString t = some c ∧
      DecodeString (EncodeToString c) = some c ∧
      (t = "aGVsbG8=" → EncodeToString c = "aGVsbG8=") ∧
      (errOf (Open g.Open fs' (Join [storageDir, n])) = none →
        errOf (ReadAll g.ReadAll (Node.file c)) = none →
        handlerExtractFromStorage storageDir g fs' (post ⟨n⟩) =
          (⟨http.StatusOK, "application/json",
            ResponseBody.extracted ⟨EncodeToString c, true, ""⟩⟩, fs')) ∧
      ((errOf (Open g.Open fs' (Join [storageDir, n])) ≠ none ∨
          errOf (ReadAll g.ReadAll (Node.file c)) ≠ none) →
        ∃ m, handlerExtractFromStorage storageDir g fs' (post ⟨n⟩) =
          (sendErrorResponse m, fs')) := by
  obtain ⟨c, hdec, hfile, hb⟩ := save_success_content _ _ _ _ _ h
  have hx := extract_of_stored storageDir g fs' n c hb hfile
  refine ⟨c, hdec, DecodeString_EncodeToString c, ?_, hx.1, hx.2⟩
  intro ht
  subst ht
  have hc : DecodeString "aGVsbG8=" = some [104, 101, 108, 108, 111] := by decide
  have hce : c = [104, 101, 108, 108, 111] := by
    simp only at hdec
    rw [hc] at hdec
    exact (Option.some.inj hdec).symm
  subst hce
  decide

/-- The scenario of the spec for claim C1: Save of a.txt with body aGVsbG8= succeeds on an
empty disk and the Extract that follows, whose open and read succeed, returns the FileBody
aGVsbG8=. -/
theorem C1_save_then_extract_witness :
    handlerSaveFileToStorage "/srv/storage" noFaults [] (post ⟨"aGVsbG8=", "a.txt"⟩) =
      (sendSuccessResponse,
        [("/srv/storage/a.txt", Node.file [104, 101, 108, 108, 111]),
          ("/srv/storage", Node.dir)]) ∧
    handlerExtractFromStorage "/srv/storage" noFaults
        [("/srv/storage/a.txt", Node.file [104, 101, 108, 108, 111]),
          ("/srv/storage", Node.dir)] (post ⟨"a.txt"⟩) =
      (⟨200, "application/json", ResponseBody.extracted ⟨"aGVsbG8=", true, ""⟩⟩,
        [("/srv/storage/a.txt", Node.file [104, 101, 108, 108, 111]),
          ("/srv/storage", Node.dir)]) ∧
    ∃ c, DecodeString "aGVsbG8=" = some c ∧
      DecodeString (EncodeToString c) = some c ∧
      ("aGVsbG8=" = "aGVsbG8=" → EncodeToString c = "aGVsbG8=") ∧
      (errOf (Open noFaults.Open
          [("/srv/storage/a.txt", Node.file [104, 101, 108, 108, 111]),
            ("/srv/storage", Node.dir)] (Join ["/srv/storage", "a.txt"])) = none →
        errOf (ReadAll noFaults.ReadAll (Node.file c)) = none →
        handlerExtractFromStorage "/srv/storage" noFaults
            [("/srv/storage/a.txt", Node.file [104, 101, 108, 108, 111]),
              ("/srv/storage", Node.dir)] (post ⟨"a.txt"⟩) =
          (⟨http.StatusOK, "application/json",
            ResponseBody.extracted ⟨EncodeToString c, true, ""⟩⟩,
            [("/srv/storage/a.txt", Node.file [104, 101, 108, 108, 111]),
              ("/srv/storage", Node.dir)])) ∧
      ((errOf (Open noFaults.Open
            [("/srv/storage/a.txt", Node.file [104, 101, 108, 108, 111]),
              ("/srv/storage", Node.dir)] (Join ["/srv/storage", "a.txt"])) ≠ none ∨
          errOf (ReadAll noFaults.ReadAll (Node.file c)) ≠ none) →
        ∃ m, handlerExtractFromStorage "/srv/storage" noFaults
            [("/srv/storage/a.txt", Node.file [104, 101, 108, 108, 111]),
              ("/srv/storage", Node.dir)] (post ⟨"a.txt"⟩) =
          (sendErrorResponse m,
            [("/srv/storage/a.txt", Node.file [104, 101, 108, 108, 111]),
              ("/srv/storage", Node.dir)])) :=
  ⟨by decide, by decide,
    C1_save_then_extract "/srv/storage" noFaults noFaults [] _ "a.txt" "aGVsbG8="
      (by decide)⟩

/-- Claim C1 fails as stated: the stored file a.txt exists with a mode that denies reading
(0200). Save opens it for writing only and answers with the success response; with no
fault at all, the open of the Extract that follows fails with EACCES and Extract answers
Error opening file instead of Success true. -/
theorem C1_counterexample_unreadable_file :
    handlerSaveFileToStorage "/srv/storage" noFaults
        [("/srv/storage/a.txt", Node.unreadable []), ("/srv/storage", Node.dir)]
        (post ⟨"aGVsbG8=", "a.txt"⟩) =
      (sendSuccessResponse,
        [("/srv/storage/a.txt", Node.unreadable [104, 101, 108, 108, 111]),
          ("/srv/storage", Node.dir)]) ∧
    handlerExtractFromStorage "/srv/storage" noFaults
        [("/srv/storage/a.txt", Node.unreadable [104, 101, 108, 108, 111]),
          ("/srv/storage", Node.dir)] (post ⟨"a.txt"⟩) =
      (⟨400, "application/json", ResponseBody.result
          ⟨false, "Error opening file: open /srv/storage/a.txt: permission denied"⟩⟩,
        [("/srv/storage/a.txt", Node.unreadable [104, 101, 108, 108, 111]),
          ("/srv/storage", Node.dir)]) := by
  decide

/-- Claim C2, amended: after a successful Save of n with content c1 and then a successful
Save of n with content c2, the path of n names a regular file whose content is exactly c2,
whatever the lengths of c1 and c2, and the Extract of n that follows returns the encoding
of c2 whenever its own open and read of the stored file return no error; when one of them
fails, as the open does for a file whose mode denies reading, Extract answers with an
error response. -/
theorem C2_overwrite (storageDir : String) (f1 f2 g : Faults) (fs fs1 fs2 : FileSystem)
    (n t1 t2 : String) (c1 c2 : List Byte)
    (_hc1 : DecodeString t1 = some c1) (hc2 : DecodeString t2 = some c2)
    (_h1 : handlerSaveFileToStorage storageDir f1 fs (post ⟨t1, n⟩) = (sendSuccessResponse, fs1))
    (h2 : handlerSaveFileToStorage storageDir f2 fs1 (post ⟨t2, n⟩) =
      (sendSuccessResponse, fs2)) :
    (lookupNode fs2 (Join [storageDir, n]) = some (Node.file c2) ∨
        lookupNode fs2 (Join [storageDir, n]) = some (Node.unreadable c2)) ∧
      DecodeString (EncodeToString c2) = some c2 ∧
      (errOf (Open g.Open fs2 (Join [storageDir, n])) = none →
        errOf (ReadAll g.ReadAll (Node.file c2)) = none →
        handlerExtractFromStorage storageDir g fs2 (post ⟨n⟩) =
          (⟨http.StatusOK, "application/json",
            ResponseBody.extracted ⟨EncodeToString c2, true, ""⟩⟩, fs2)) ∧
      ((errOf (Open g.Open fs2 (Join [storageDir, n])) ≠ none ∨
          errOf (ReadAll g.ReadAll (Node.file c2)) ≠ none) →
        ∃ m, handlerExtractFromStorage storageDir g fs2 (post ⟨n⟩) =
          (sendErrorResponse m, fs2)) := by
  obtain ⟨c, hdec, hfile, hb⟩ := save_success_content _ _ _ _ _ h2
  simp only at hdec hfile hb
  rw [hc2] at hdec
  have hc : c2 = c := Option.some.inj hdec
  subst hc
  have hx := extract_of_stored storageDir g fs2 n c2 hb hfile
  exact ⟨hfile, DecodeString_EncodeToString c2, hx.1, hx.2⟩

/-- A run of claim C2 as amended: the five bytes of hello are overwritten by the two bytes
of hi, and an Extract whose open and read succeed returns aGk=. -/
theorem C2_overwrite_witness :
    handlerExtractFromStorage "/srv/storage" noFaults
        [("/srv/storage/a.txt", Node.file [104, 105]), ("/srv/storage", Node.dir)]
        (post ⟨"a.txt"⟩) =
      (⟨200, "application/json", ResponseBody.extracted ⟨"aGk=", true, ""⟩⟩,
        [("/srv/storage/a.txt", Node.file [104, 105]), ("/srv/storage", Node.dir)]) ∧
    ((lookupNode [("/srv/storage/a.txt", Node.file [104, 105]), ("/srv/storage", Node.dir)]
          (Join ["/srv/storage", "a.txt"]) = some (Node.file [104, 105]) ∨
        lookupNode [("/srv/storage/a.txt", Node.file [104, 105]), ("/srv/storage", Node.dir)]
          (Join ["/srv/storage", "a.txt"]) = some (Node.unreadable [104, 105])) ∧
      DecodeString (EncodeToString [104, 105]) = some [104, 105] ∧
      (errOf (Open noFaults.Open
          [("/srv/storage/a.txt", Node.file [104, 105]), ("/srv/storage", Node.dir)]
          (Join ["/srv/storage", "a.txt"])) = none →
        errOf (ReadAll noFaults.ReadAll (Node.file [104, 105])) = none →
        handlerExtractFromStorage "/srv/storage" noFaults
            [("/srv/storage/a.txt", Node.file [104, 105]), ("/srv/storage", Node.dir)]
            (post ⟨"a.txt"⟩) =
          (⟨http.StatusOK, "application/json",
            ResponseBody.extracted ⟨EncodeToString [104, 105], true, ""⟩⟩,
            [("/srv/storage/a.txt", Node.file [104, 105]), ("/srv/storage", Node.dir)])) ∧
      ((errOf (Open noFaults.Open
            [("/srv/storage/a.txt", Node.file [104, 105]), ("/srv/storage", Node.dir)]
            (Join ["/srv/storage", "a.txt"])) ≠ none ∨
          errOf (ReadAll noFaults.ReadAll (Node.file [104, 105])) ≠ none) →
        ∃ m, handlerExtractFromStorage "/srv/storage" noFaults
            [("/srv/storage/a.txt", Node.file [104, 105]), ("/srv/storage", Node.dir)]
            (post ⟨"a.txt"⟩) =
          (sendErrorResponse m,
            [("/srv/storage/a.txt", Node.file [104, 105]), ("/srv/storage", Node.dir)]))) :=
  ⟨by decide,
    C2_overwrite "/srv/storage" noFaults noFaults noFaults []
      [("/srv/storage/a.txt", Node.file [104, 101, 108, 108, 111]), ("/srv/storage", Node.dir)]
      [("/srv/storage/a.txt", Node.file [104, 105]), ("/srv/storage", Node.dir)]
      "a.txt" "aGVsbG8=" "aGk=" [104, 101, 108, 108, 111] [104, 105]
      (by decide) (by decide) (by decide) (by decide)⟩

/-- Claim C2 fails as stated: the stored file a.txt has a mode that denies reading (0200).
Both Saves open it for writing only and answer with the success response, and the stored
content is the two bytes of hi; yet, with no fault at all, the open of the Extract that
follows fails with EACCES and what Extract returns is Error opening file, not the
content. -/
theorem C2_counterexample_unreadable_file :
    handlerSaveFileToStorage "/srv/storage" noFaults
        [("/srv/storage/a.txt", Node.unreadable []), ("/srv/storage", Node.dir)]
        (post ⟨"aGVsbG8=", "a.txt"⟩) =
      (sendSuccessResponse,
        [("/srv/storage/a.txt", Node.unreadable [104, 101, 108, 108, 111]),
          ("/srv/storage", Node.dir)]) ∧
    handlerSaveFileToStorage "/srv/storage" noFaults
        [("/srv/storage/a.txt", Node.unreadable [104, 101, 108, 108, 111]),
          ("/srv/storage", Node.dir)]
        (post ⟨"aGk=", "a.txt"⟩) =
      (sendSuccessResponse,
        [("/srv/storage/a.txt", Node.unreadable [104, 105]), ("/srv/storage", Node.dir)]) ∧
    handlerExtractFromStorage "/srv/storage" noFaults
        [("/srv/storage/a.txt", Node.unreadable [104, 105]), ("/srv/storage", Node.dir)]
        (post ⟨"a.txt"⟩) =
      (⟨400, "application/json", ResponseBody.result
          ⟨false, "Error opening file: open /srv/storage/a.txt: permission denied"⟩⟩,
        [("/srv/storage/a.txt", Node.unreadable [104, 105]), ("/srv/storage", Node.dir)]) := by
  decide

/-- Claim C4: after a successful Save of n and then a Delete of n that answers with the
success response, an Extract of n whose open is not interrupted by an I/O error answers
with the error response File not found: n, which carries no file body. -/
theorem C4_save_delete_extract (storageDir : String) (f1 f2 g : Faults)
    (fs fs1 fs2 : FileSystem) (n t : String)
    (_hs : handlerSaveFileToStorage storageDir f1 fs (post ⟨t, n⟩) = (sendSuccessResponse, fs1))
    (hd : handlerDeleteFileInStorage storageDir f2 fs1 (post ⟨n⟩) = (sendSuccessResponse, fs2))
    (hOpen : g.Open = none) :
    handlerExtractFromStorage storageDir g fs2 (post ⟨n⟩) =
      (⟨http.StatusBadRequest, "application/json",
        ResponseBody.result ⟨false, "File not found: " ++ n⟩⟩, fs2) :=
  extract_of_absent _ _ _ _ hOpen (delete_success_absent _ _ _ _ _ hd).2
    (delete_success_absent _ _ _ _ _ hd).1

/-- The scenario of the spec for claim C4: Save of a.txt, Delete of a.txt, then Extract
answers File not found: a.txt. -/
theorem C4_save_delete_extract_witness :
    handlerExtractFromStorage "/srv/storage" noFaults [("/srv/storage", Node.dir)]
        (post ⟨"a.txt"⟩) =
      (⟨http.StatusBadRequest, "application/json",
        ResponseBody.result ⟨false, "File not found: " ++ "a.txt"⟩⟩,
        [("/srv/storage", Node.dir)]) :=
  C4_save_delete_extract "/srv/storage" noFaults noFaults noFaults []
    [("/srv/storage/a.txt", Node.file [104, 101, 108, 108, 111]), ("/srv/storage", Node.dir)]
    [("/srv/storage", Node.dir)] "a.txt" "aGVsbG8=" (by decide) (by decide) rfl

/-- Claim C6: when the decoder rejects the FileBody, Save answers with the error response
Error decoding base64 and the storage after the call is the storage before it, whatever
the file system would have done: no file system call is made. -/
theorem C6_decode_error_no_change (storageDir : String) (f : Faults) (fs : FileSystem)
    (n t : String) (h : DecodeString t = none) :
    handlerSaveFileToStorage storageDir f fs (post ⟨t, n⟩) =
      (⟨http.StatusBadRequest, "application/json",
        ResponseBody.result ⟨false, "Error decoding base64"⟩⟩, fs) := by
  simp [handlerSaveFileToStorage, post, h, sendErrorResponse]

/-- A run of claim C6: a body with a character outside the alphabet, over a stored file of
the same name. -/
theorem C6_decode_error_no_change_witness :
    handlerSaveFileToStorage "/srv/storage" noFaults
        [("/srv/storage/a.txt", Node.file [104, 105]), ("/srv/storage", Node.dir)]
        (post ⟨"a*Vs", "a.txt"⟩) =
      (⟨http.StatusBadRequest, "application/json",
        ResponseBody.result ⟨false, "Error decoding base64"⟩⟩,
        [("/srv/storage/a.txt", Node.file [104, 105]), ("/srv/storage", Node.dir)]) :=
  C6_decode_error_no_change "/srv/storage" noFaults _ "a.txt" "a*Vs" (by decide)

/-- Claim C3: the encoder is defined on every byte sequence, the empty one included, and
the decoder applied to its output succeeds and returns exactly the bytes. -/
theorem C3_decode_encode_roundtrip (b : List Byte) :
    DecodeString (EncodeToString b) = some b ∧ EncodeToString [] = "" :=
  ⟨DecodeString_EncodeToString b, rfl⟩

theorem save_response_shape (storageDir : String) (f : Faults) (fs : FileSystem)
    (r : Request SaveFileRequest) :
    (r.Method ≠ http.MethodPost ∧ (handlerSaveFileToStorage storageDir f fs r).1 =
        http.Error "Method not allowed" http.StatusMethodNotAllowed) ∨
      (r.Method = http.MethodPost ∧
        ((∃ m, (handlerSaveFileToStorage storageDir f fs r).1 = sendErrorResponse m) ∨
          (handlerSaveFileToStorage storageDir f fs r).1 = sendSuccessResponse)) := by
  unfold handlerSaveFileToStorage
  by_cases hm : r.Method = http.MethodPost
  · refine Or.inr ⟨hm, ?_⟩
    simp only [hm, ne_eq, not_true_eq_false, if_false]
    repeat (first | exact Or.inl ⟨_, rfl⟩ | exact Or.inr rfl | split)
  · exact Or.inl ⟨hm, by simp [hm]⟩

theorem delete_response_shape (storageDir : String) (f : Faults) (fs : FileSystem)
    (r : Request DeleteFileRequest) :
    (r.Method ≠ http.MethodPost ∧ (handlerDeleteFileInStorage storageDir f fs r).1 =
        http.Error "Method not allowed" http.StatusMethodNotAllowed) ∨
      (r.Method = http.MethodPost ∧
        ((∃ m, (handlerDeleteFileInStorage storageDir f fs r).1 = sendErrorResponse m) ∨
          (handlerDeleteFileInStorage storageDir f fs r).1 = sendSuccessResponse)) := by
  unfold handlerDeleteFileInStorage
  by_cases hm : r.Method = http.MethodPost
  · refine Or.inr ⟨hm, ?_⟩
    simp only [hm, ne_eq, not_true_eq_false, if_false]
    repeat (first | exact Or.inl ⟨_, rfl⟩ | exact Or.inr rfl | split)
  · exact Or.inl ⟨hm, by simp [hm]⟩

theorem extract_response_shape (storageDir : String) (f : Faults) (fs : FileSystem)
    (r : Request ExtractFileRequest) :
    (r.Method ≠ http.MethodPost ∧ (handlerExtractFromStorage storageDir f fs r).1 =
        http.Error "Method not allowed" http.StatusMethodNotAllowed) ∨
      (r.Method = http.MethodPost ∧
        ((∃ m, (handlerExtractFromStorage storageDir f fs r).1 = sendErrorResponse m) ∨
          ∃ b, (handlerExtractFromStorage storageDir f fs r).1 =
            ⟨http.StatusOK, "application/json", ResponseBody.extracted ⟨b, true, ""⟩⟩)) := by
  unfold handlerExtractFromStorage
  by_cases hm : r.Method = http.MethodPost
  · refine Or.inr ⟨hm, ?_⟩
    simp only [hm, ne_eq, not_true_eq_false, if_false]
    repeat (first | exact Or.inl ⟨_, rfl⟩ | exact Or.inr ⟨_, rfl⟩ | split)
  · exact Or.inl ⟨hm, by simp [hm]⟩

theorem envelope_of_error (method m : String) (hm : method = http.MethodPost) :
    envelopeHolds method (sendErrorResponse m) :=
  ⟨fun _ => rfl, fun h => absurd hm h, fun _ => rfl⟩

/-- Claim C7, amended: for every request to each of the three handlers, whatever the
method, the body, the storage state and the faults, a POST request is answered with a JSON
object carrying Success and Message, a request with another method is answered with the
plain text Method not allowed and status 405, and every response that does not report
success carries a status of the client-error class. -/
theorem C7_response_envelope (storageDir : String) (f : Faults) (fs : FileSystem)
    (rs : Request SaveFileRequest) (rd : Request DeleteFileRequest)
    (re : Request ExtractFileRequest) :
    envelopeHolds rs.Method (handlerSaveFileToStorage storageDir f fs rs).1 ∧
      envelopeHolds rd.Method (handlerDeleteFileInStorage storageDir f fs rd).1 ∧
      envelopeHolds re.Method (handlerExtractFromStorage storageDir f fs re).1 := by
  refine ⟨?_, ?_, ?_⟩
  · rcases save_response_shape storageDir f fs rs with ⟨hm, h⟩ | ⟨hm, ⟨m, h⟩ | h⟩
    · rw [h]
      exact ⟨fun h => absurd h hm, fun _ => rfl, fun _ => by decide⟩
    · rw [h]
      exact envelope_of_error _ _ hm
    · rw [h]
      exact ⟨fun _ => rfl, fun h => absurd hm h, fun h => by simp [sendSuccessResponse, Response.isSuccess] at h⟩
  · rcases delete_response_shape storageDir f fs rd with ⟨hm, h⟩ | ⟨hm, ⟨m, h⟩ | h⟩
    · rw [h]
      exact ⟨fun h => absurd h hm, fun _ => rfl, fun _ => by decide⟩
    · rw [h]
      exact envelope_of_error _ _ hm
    · rw [h]
      exact ⟨fun _ => rfl, fun h => absurd hm h, fun h => by simp [sendSuccessResponse, Response.isSuccess] at h⟩
  · rcases extract_response_shape storageDir f fs re with ⟨hm, h⟩ | ⟨hm, ⟨m, h⟩ | ⟨b, h⟩⟩
    · rw [h]
      exact ⟨fun h => absurd h hm, fun _ => rfl, fun _ => by decide⟩
    · rw [h]
      exact envelope_of_error _ _ hm
    · rw [h]
      exact ⟨fun _ => rfl, fun h => absurd hm h, fun h => by simp [Response.isSuccess] at h⟩

/-- A run of claim C7 as amended: a Save with an undecodable body, a Delete of a missing
file and an Extract sent with GET. -/
theorem C7_response_envelope_witness :
    envelopeHolds "POST"
        (handlerSaveFileToStorage "/srv/storage" noFaults [] (post ⟨"a*Vs", "a.txt"⟩)).1 ∧
      envelopeHolds "POST"
        (handlerDeleteFileInStorage "/srv/storage" noFaults [] (post ⟨"a.txt"⟩)).1 ∧
      envelopeHolds "GET"
        (handlerExtractFromStorage "/srv/storage" noFaults []
          ⟨"GET", RequestBody.parsed ⟨"a.txt"⟩⟩).1 :=
  C7_response_envelope "/srv/storage" noFaults [] (post ⟨"a*Vs", "a.txt"⟩) (post ⟨"a.txt"⟩)
    ⟨"GET", RequestBody.parsed ⟨"a.txt"⟩⟩

/-- Claim C7 fails as stated: a Save request sent with GET is answered with the plain text
Method not allowed, which is no JSON object with Success and Message. -/
theorem C7_counterexample_get_is_plain_text :
    (handlerSaveFileToStorage "/srv/storage" noFaults []
        ⟨"GET", RequestBody.parsed ⟨"aGVsbG8=", "a.txt"⟩⟩).1 =
      ⟨405, "text/plain; charset=utf-8", ResponseBody.text "Method not allowed\n"⟩ ∧
    (handlerSaveFileToStorage "/srv/storage" noFaults []
        ⟨"GET", RequestBody.parsed ⟨"aGVsbG8=", "a.txt"⟩⟩).1.isResultJson = false := by
  decide

theorem saveSixSteps_some (storageDir : String) (f : Faults) (fs fs3 : FileSystem)
    (req : SaveFileRequest) :
    saveSixSteps storageDir f fs req = some fs3 ↔
      ∃ fileData fs1 fs2,
        DecodeString req.FileBody = some fileData ∧
        MkdirAll f.MkdirAll fs storageDir = .ok fs1 ∧
        OpenFile f.OpenFile fs1 (Join [storageDir, req.FileName]) = .ok fs2 ∧
        Copy f.Copy fs2 (Join [storageDir, req.FileName]) fileData = (fs3, none) ∧
        Sync f.Sync = none ∧ Close f.Close = none := by
  constructor
  · intro h
    unfold saveSixSteps at h
    split at h
    · simp at h
    · rename_i fileData hdec
      split at h
      · simp at h
      · rename_i fs1 hmk
        split at h
        · simp at h
        · rename_i fs2 hopen
          split at h
          · simp at h
          · rename_i fs3a hcopy
            split at h
            · rename_i hsync hclose
              have : fs3a = fs3 := by simpa using h
              subst this
              exact ⟨fileData, fs1, fs2, hdec, hmk, hopen, hcopy, hsync, hclose⟩
            · simp at h
  · rintro ⟨fileData, fs1, fs2, hdec, hmk, hopen, hcopy, hsync, hclose⟩
    simp [saveSixSteps, hdec, hmk, hopen, hcopy, hsync, hclose]

/-- Claim C10, amended: a POST Save request with a parsed body is answered with the success
response if and only if all six steps (decode, ensure the directory, open with
truncation, write, sync, close) and the Stat of the written file that follows them
complete without error; in every other case the answer is an error response. -/
theorem C10_success_iff_steps_and_stat (storageDir : String) (f : Faults)
    (fs : FileSystem) (req : SaveFileRequest) :
    ((handlerSaveFileToStorage storageDir f fs (post req)).1 = sendSuccessResponse ↔
      ∃ fs3, saveSixSteps storageDir f fs req = some fs3 ∧
        errOf (Stat f.Stat fs3 (Join [storageDir, req.FileName])) = none) ∧
    ((handlerSaveFileToStorage storageDir f fs (post req)).1 ≠ sendSuccessResponse →
      ∃ m, (handlerSaveFileToStorage storageDir f fs (post req)).1 = sendErrorResponse m) := by
  constructor
  · constructor
    · intro h
      have h2 : handlerSaveFileToStorage storageDir f fs (post req) =
          (sendSuccessResponse, (handlerSaveFileToStorage storageDir f fs (post req)).2) :=
        Prod.ext h rfl
      obtain ⟨fileData, fs1, fs2, hdec, hmk, hopen, hcopy, hsync, hclose, hstat⟩ :=
        save_success_steps _ _ _ _ _ h2
      exact ⟨_, (saveSixSteps_some _ _ _ _ _).mpr
        ⟨fileData, fs1, fs2, hdec, hmk, hopen, hcopy, hsync, hclose⟩, hstat⟩
    · rintro ⟨fs3, hsix, hstat⟩
      obtain ⟨fileData, fs1, fs2, hdec, hmk, hopen, hcopy, hsync, hclose⟩ :=
        (saveSixSteps_some _ _ _ _ _).mp hsix
      cases hst : Stat f.Stat fs3 (Join [storageDir, req.FileName]) with
      | error e => rw [hst] at hstat; simp [errOf] at hstat
      | ok sz =>
        simp [handlerSaveFileToStorage, post, hdec, hmk, hopen, hcopy, hsync, hclose, hst]
  · intro hne
    rcases save_response_shape storageDir f fs (post req) with ⟨hm, _⟩ | ⟨_, h | h⟩
    · exact absurd rfl hm
    · exact h
    · exact absurd h hne

/-- A run of claim C10 as amended: with no fault the six steps and Stat complete and the
answer is the success response. -/
theorem C10_success_iff_steps_and_stat_witness :
    (handlerSaveFileToStorage "/srv/storage" noFaults [] (post ⟨"aGVsbG8=", "a.txt"⟩)).1 =
      sendSuccessResponse :=
  (C10_success_iff_steps_and_stat "/srv/storage" noFaults [] ⟨"aGVsbG8=", "a.txt"⟩).1.2
    ⟨[("/srv/storage/a.txt", Node.file [104, 101, 108, 108, 111]), ("/srv/storage", Node.dir)],
      by decide, by decide⟩

/-- Claim C10 fails as stated: when Stat fails after the close, all six steps have
completed without error and yet the answer is the error response Error getting file
info. -/
theorem C10_counterexample_stat_fails :
    saveSixSteps "/srv/storage" ⟨none, none, none, none, none, some Errno.EIO, none, none, none⟩
        [] ⟨"aGVsbG8=", "a.txt"⟩ =
      some [("/srv/storage/a.txt", Node.file [104, 101, 108, 108, 111]),
        ("/srv/storage", Node.dir)] ∧
    (handlerSaveFileToStorage "/srv/storage"
        ⟨none, none, none, none, none, some Errno.EIO, none, none, none⟩ []
        (post ⟨"aGVsbG8=", "a.txt"⟩)).1 =
      ⟨400, "application/json", ResponseBody.result ⟨false, "Error getting file info"⟩⟩ := by
  decide

theorem wellFormed_chars : ∀ (s : List Char), wellFormed s = true →
    ∀ x ∈ s, inAlphabet x = true ∨ x = padChar
  | [], _, x, hx => by simp at hx
  | [_], h, _, _ => by simp [wellFormed] at h
  | [_, _], h, _, _ => by simp [wellFormed] at h
  | [_, _, _], h, _, _ => by simp [wellFormed] at h
  | a :: b :: c :: d :: rest, h, x, hx => by
    simp only [wellFormed, Bool.and_eq_true, Bool.or_eq_true, beq_iff_eq] at h
    obtain ⟨⟨ha, hb⟩, hcase⟩ := h
    rcases hcase with ⟨⟨hc, hd⟩, hrest⟩ | ⟨⟨hnil, hd⟩, hc⟩
    · simp only [List.mem_cons] at hx
      rcases hx with rfl | rfl | rfl | rfl | hx
      · exact Or.inl ha
      · exact Or.inl hb
      · exact Or.inl hc
      · exact Or.inl hd
      · exact wellFormed_chars rest hrest x hx
    · subst hnil
      simp only [List.mem_cons, List.mem_nil_iff, or_false] at hx
      rcases hx with rfl | rfl | rfl | rfl
      · exact Or.inl ha
      · exact Or.inl hb
      · exact hc
      · exact Or.inr hd

theorem not_wellFormed_of_malformed (s : List Char) (h : malformed s = true) :
    wellFormed s = false := by
  cases hw : wellFormed s with
  | false => rfl
  | true =>
    exfalso
    simp only [malformed, hw, Bool.not_true, Bool.or_false, List.any_eq_true,
      Bool.and_eq_true, Bool.not_eq_true', bne_iff_ne, ne_eq] at h
    obtain ⟨x, hx, hna, hnp⟩ := h
    rcases wellFormed_chars s hw x hx with h1 | h1
    · rw [h1] at hna
      exact Bool.noConfusion hna
    · exact hnp h1

/-- A body that is malformed once its carriage returns and line feeds are left out does
not decode. -/
theorem DecodeString_malformed (t : String) (h : malformed (stripNewlines t.data) = true) :
    DecodeString t = none := by
  cases hd : DecodeString t with
  | none => rfl
  | some out =>
    have := wellFormed_of_decodeLoop _ _ _ hd
    rw [not_wellFormed_of_malformed _ h] at this
    exact Bool.noConfusion this

/-- Claim C9, amended: for every FileBody that is malformed for the padded 64-symbol
encoding once its carriage returns and line feeds are left out (a character outside the
alphabet and the padding symbol, or wrong padding), the decode step fails and Save answers
Error decoding base64 without touching the storage. -/
theorem C9_malformed_body_rejected (storageDir : String) (f : Faults) (fs : FileSystem)
    (n t : String) (h : malformed (stripNewlines t.data) = true) :
    DecodeString t = none ∧
      handlerSaveFileToStorage storageDir f fs (post ⟨t, n⟩) =
        (sendErrorResponse "Error decoding base64", fs) := by
  have hd := DecodeString_malformed t h
  exact ⟨hd, by simp [handlerSaveFileToStorage, post, hd]⟩

/-- Runs of claim C9 as amended: a body with a character outside the alphabet. -/
theorem C9_malformed_body_rejected_witness :
    malformed (stripNewlines "aGVs\nb*8=".data) = true ∧
    DecodeString "aGVs\nb*8=" = none ∧
      handlerSaveFileToStorage "/srv/storage" noFaults [] (post ⟨"aGVs\nb*8=", "a.txt"⟩) =
        (sendErrorResponse "Error decoding base64", []) :=
  ⟨by decide, C9_malformed_body_rejected "/srv/storage" noFaults [] "a.txt" "aGVs\nb*8="
    (by decide)⟩

/-- Claim C9 fails as stated: a line feed is a character outside the alphabet and the
padding symbol, yet the body decodes, the line feed is skipped, and Save stores the
bytes. -/
theorem C9_counterexample_newline_skipped :
    malformed "aGVs\nbG8=".data = true ∧
    DecodeString "aGVs\nbG8=" = some [104, 101, 108, 108, 111] ∧
    handlerSaveFileToStorage "/srv/storage" noFaults [] (post ⟨"aGVs\nbG8=", "a.txt"⟩) =
      (sendSuccessResponse,
        [("/srv/storage/a.txt", Node.file [104, 101, 108, 108, 111]),
          ("/srv/storage", Node.dir)]) := by
  decide

